import Mathlib

/-!
Verification development for the `confluence-markdown-export` repository.

Strings are modelled as `List Char`.  Python's `re.sub` for the concrete
patterns used by the source is modelled by a left-to-right scanner
(`subScanFuel`): at each position it attempts the pattern via a `try`
function that returns the replacement text and the remainder after the
match; on failure it emits one character and moves on.  The fuel argument
equals the length of the scanned string; every pattern of the source
matches at least one character, so this fuel is never exhausted and the
scanner agrees with `re.sub`.
-/

namespace CPE

/-- Python's whitespace set: `str.isspace` / regex class `\s` for `str`
patterns (ASCII whitespace, the C1 separators, and the Unicode spaces). -/
def pyIsSpace (c : Char) : Bool :=
  c = ' ' || c = '\t' || c = '\n' || c = '\r' || c = '\x0b' || c = '\x0c' ||
  c = '\x1c' || c = '\x1d' || c = '\x1e' || c = '\x1f' || c = '\x85' ||
  c = '\xa0' || c = ' ' || (0x2000 ≤ c.toNat && c.toNat ≤ 0x200a) ||
  c = ' ' || c = ' ' || c = ' ' || c = ' ' || c = '　'

/-- `str.strip()`: drop Python whitespace from both ends. -/
def pyStrip (s : List Char) : List Char :=
  (((s.dropWhile pyIsSpace).reverse).dropWhile pyIsSpace).reverse

/-- Split a string at the first `'>'`; models the regex fragment `[^>]*>`
(the class `[^>]` also matches newlines).  Returns the part before the
`'>'` and the part after it; fails when no `'>'` exists. -/
def splitAtFirstGt : List Char → Option (List Char × List Char)
  | [] => none
  | c :: rest =>
    if c = '>' then some ([], rest)
    else
      match splitAtFirstGt rest with
      | none => none
      | some (a, b) => some (c :: a, b)

/-- The regex fragment `(.*?)close`: non-greedy dot (which does not match
`'\n'`) up to the literal `close`.  Returns the captured group and the
remainder after `close`. -/
def lazyUntil (close : List Char) : List Char → Option (List Char × List Char)
  | [] => if close.isPrefixOf ([] : List Char) then some ([], []) else none
  | c :: rest =>
    if close.isPrefixOf (c :: rest) then some ([], (c :: rest).drop close.length)
    else if c = '\n' then none
    else
      match lazyUntil close rest with
      | none => none
      | some (g, r) => some (c :: g, r)

/-- One pass of `re.sub`/`str.replace`: scan left to right; where `try1`
matches, emit its replacement and continue after the match, otherwise
emit the current character.  `fuel` is initialised to the length of the
string (sufficient because every pattern consumes at least one char). -/
def subScanFuel (try1 : List Char → Option (List Char × List Char)) :
    Nat → List Char → List Char
  | 0, s => s
  | _ + 1, [] => []
  | fuel + 1, c :: rest =>
    match try1 (c :: rest) with
    | some (rep, r) => rep ++ subScanFuel try1 fuel r
    | none => c :: subScanFuel try1 fuel rest

/-- Apply one substitution pass over the whole string. -/
def subScan (try1 : List Char → Option (List Char × List Char))
    (s : List Char) : List Char :=
  subScanFuel try1 s.length s

/-- Matcher for `<mid>(.*?)close` with an exact opening tag (no
attributes), e.g. `<p>(.*?)</p>`, `<em>(.*?)</em>`.  The replacement is
`wrapL ++ group ++ wrapR`. -/
def tryExact (mid close wrapL wrapR : List Char) (s : List Char) :
    Option (List Char × List Char) :=
  if ('<' :: mid ++ ['>']).isPrefixOf s then
    match lazyUntil close (s.drop (mid.length + 2)) with
    | none => none
    | some (g, r) => some (wrapL ++ g ++ wrapR, r)
  else none

/-- Matcher for `<lead[^>]*>(.*?)close` (attributes allowed), e.g. the
header rules `<h1[^>]*>(.*?)</h1>`.  When `requireSpace` is true the rule
is `<lead\s+[^>]*>(.*?)close` (the `<p\s+[^>]*>` rule): at least one
whitespace character must follow `lead`. -/
def tryAttrs (lead : List Char) (requireSpace : Bool) (close wrapL wrapR : List Char)
    (s : List Char) : Option (List Char × List Char) :=
  if ('<' :: lead).isPrefixOf s then
    let r0 := s.drop (lead.length + 1)
    if requireSpace && !(r0.head?.elim false pyIsSpace) then none
    else
      match splitAtFirstGt r0 with
      | none => none
      | some (_, afterOpen) =>
        match lazyUntil close afterOpen with
        | none => none
        | some (g, r) => some (wrapL ++ g ++ wrapR, r)
  else none

/-- Matcher for `<br\s*/?>`; replacement is a newline.  After the literal
`<br`, greedy `\s*` takes the whitespace run; then either `/>` or `>`
must follow (whitespace characters are neither `'/'` nor `'>'`, so no
backtracking arises). -/
def tryBr (s : List Char) : Option (List Char × List Char) :=
  if "<br".toList.isPrefixOf s then
    if "/>".toList.isPrefixOf ((s.drop 3).dropWhile pyIsSpace) then
      some (['\n'], ((s.drop 3).dropWhile pyIsSpace).drop 2)
    else if ">".toList.isPrefixOf ((s.drop 3).dropWhile pyIsSpace) then
      some (['\n'], ((s.drop 3).dropWhile pyIsSpace).drop 1)
    else none
  else none

/-- Matcher for `str.replace(pat, rep)` (also single-char regex classes):
fires where `pat` is a prefix. -/
def tryReplace (pat rep : List Char) (s : List Char) :
    Option (List Char × List Char) :=
  if pat.isPrefixOf s then some (rep, s.drop pat.length) else none

/-- Matcher for `re.sub(r'\n\n\n+', '\n\n', ...)`: a run of three or more
newlines (greedy) collapses to two. -/
def tryCollapse (s : List Char) : Option (List Char × List Char) :=
  if ['\n', '\n', '\n'].isPrefixOf s then
    some (['\n', '\n'], (s.drop 3).dropWhile (fun c => c = '\n'))
  else none

/-- Matcher for the generic tag stripper `re.sub(r'<[^>]+>', '', ...)`:
a `'<'`, at least one non-`'>'` character, then the first `'>'`. -/
def tryTag (s : List Char) : Option (List Char × List Char) :=
  if s.head? = some '<' then
    match splitAtFirstGt (s.drop 1) with
    | none => none
    | some (inner, r) => if inner.isEmpty then none else some ([], r)
  else none

/-- `html_to_markdown` from `export_confluence.py` (lines 27-62): the fixed
ordered sequence of substitutions, ending with `str.strip()`. -/
def html_to_markdown (html : List Char) : List Char :=
  let t := html
  -- headers
  let t := subScan (tryAttrs "h1".toList false "</h1>".toList "# ".toList ['\n']) t
  let t := subScan (tryAttrs "h2".toList false "</h2>".toList "## ".toList ['\n']) t
  let t := subScan (tryAttrs "h3".toList false "</h3>".toList "### ".toList ['\n']) t
  let t := subScan (tryAttrs "h4".toList false "</h4>".toList "#### ".toList ['\n']) t
  -- paragraphs
  let t := subScan (tryExact "p".toList "</p>".toList [] "\n\n".toList) t
  let t := subScan (tryAttrs "p".toList true "</p>".toList [] "\n\n".toList) t
  -- emphasis
  let t := subScan (tryExact "em".toList "</em>".toList ['*'] ['*']) t
  let t := subScan (tryExact "strong".toList "</strong>".toList "**".toList "**".toList) t
  -- line breaks
  let t := subScan tryBr t
  -- non-breaking space and special chars
  let t := subScan (tryReplace "&nbsp;".toList [' ']) t
  let t := subScan (tryReplace ['\xa0'] [' ']) t
  let t := subScan (tryReplace "&amp;".toList ['&']) t
  let t := subScan (tryReplace "&lt;".toList ['<']) t
  let t := subScan (tryReplace "&gt;".toList ['>']) t
  let t := subScan (tryReplace ['…'] "...".toList) t
  -- remove remaining HTML tags
  let t := subScan tryTag t
  -- clean up multiple newlines
  let t := subScan tryCollapse t
  pyStrip t

/-- The filesystem-unsafe characters replaced by `sanitize_filename`. -/
def badFileChar (c : Char) : Bool :=
  c = '<' || c = '>' || c = ':' || c = '"' || c = '/' || c = '\\' ||
  c = '|' || c = '?' || c = '*'

/-- Characters stripped from the ends by `filename.strip('. ')`. -/
def isDotSpace (c : Char) : Bool := c = '.' || c = ' '

/-- `strip('. ')`: drop dots and spaces from both ends. -/
def stripDotSpace (s : List Char) : List Char :=
  (((s.dropWhile isDotSpace).reverse).dropWhile isDotSpace).reverse

/-- `sanitize_filename` from `export_confluence.py` (lines 104-113). -/
def sanitize_filename (filename : List Char) : List Char :=
  let f1 := filename.map (fun c => if badFileChar c then '_' else c)
  let f2 := stripDotSpace f1
  if 200 < f2.length then f2.take 200 else f2

/-! ## Content fetcher and tree exporter

The HTTP collaborator is modelled as an immutable `World`: `pages` maps a
page id to its record (`none` models a failing page-body fetch, which the
source turns into `sys.exit(1)` / a raised `ConfluenceAPIError`), and
`children` maps a page id to its child-id list (`none` models a failing
children-list fetch, which the source catches and turns into `[]` plus a
warning).  File and directory side effects and fetches are threaded
through an explicit `ExportState`; the `Bool` result is `false` exactly
when the run aborted (`sys.exit` propagating through every frame). -/

/-- A fetched page record: `title` and `body.view.value` (raw HTML). -/
structure Page where
  title : List Char
  body : List Char
deriving Repr, DecidableEq

/-- The external Confluence server, immutable during one export run. -/
structure World where
  pages : String → Option Page
  children : String → Option (List String)

/-- Side effects of an export run: files written (path, content),
directories created, page-body fetches performed, children-list fetches
performed, and the two warning counters (depth guard / children-fetch
failure). -/
structure ExportState where
  files : List (List Char × List Char)
  dirs : List (List Char)
  fetches : List String
  childFetches : List String
  depthWarnings : Nat
  childWarnings : Nat
deriving Repr, DecidableEq

/-- The empty initial state. -/
def ExportState.init : ExportState := ⟨[], [], [], [], 0, 0⟩

/-- Result of `export_page_to_markdown`: the returned artifact string,
the file writes performed, and the strings sent to stdout. -/
structure SingleExportResult where
  output : List Char
  written : List (List Char × List Char)
  printed : List (List Char)
deriving Repr, DecidableEq

/-- `export_page_to_markdown` (export_confluence.py lines 115-133), after
its own `get_page` fetch succeeded with `page`: builds
`"# {title}\n\n{markdown}\n"`; writes it to `output_file` when one was
given (printing a success message), otherwise prints the artifact. -/
def export_page_to_markdown (page : Page) (output_file : Option (List Char)) :
    SingleExportResult :=
  let markdown := html_to_markdown page.body
  let output := "# ".toList ++ page.title ++ "\n\n".toList ++ markdown ++ ['\n']
  match output_file with
  | some f =>
    { output := output, written := [(f, output)],
      printed := ["Exported ".toList ++ page.title ++ " to ".toList ++ f] }
  | none => { output := output, written := [], printed := [output] }

/-- `export_page_with_children` (export_confluence.py lines 135-167),
with fuel `max_depth + 1 - depth` supplied by the wrapper below.  The
depth guard is checked first, exactly as in the source; the fuel-zero
fallback is unreachable whenever `fuel = max_depth + 1 - depth`, because
that quantity is zero only when `depth > max_depth`.  The `get_page` call
appears twice in the fetch trace because the source fetches the page once
for the title and a second time inside `export_page_to_markdown`; the
world is immutable, so both return the same record.  The sibling loop
stops at the first abort (`sys.exit` propagates); siblings after an
aborted child are not visited, which the fold models by passing the
aborted accumulator through unchanged. -/
def exportFuel (w : World) (fuel : Nat) (page_id : String)
    (output_dir : List Char) (depth max_depth : Nat) (st : ExportState) :
    ExportState × Bool :=
    if depth > max_depth then
      ({ st with depthWarnings := st.depthWarnings + 1 }, true)
    else
      match fuel with
      | 0 => (st, true)
      | fuel' + 1 =>
        match w.pages page_id with
        | none => ({ st with fetches := st.fetches ++ [page_id] }, false)
        | some page =>
          let safe_title := sanitize_filename page.title
          let output_file := output_dir ++ '/' :: safe_title ++ ".md".toList
          let r := export_page_to_markdown page (some output_file)
          let st1 := { st with fetches := st.fetches ++ [page_id, page_id],
                               files := st.files ++ r.written }
          let res : List String × Nat :=
            match w.children page_id with
            | none => ([], 1)
            | some cs => (cs, 0)
          let st2 := { st1 with childFetches := st1.childFetches ++ [page_id],
                                childWarnings := st1.childWarnings + res.2 }
          if res.1.isEmpty then (st2, true)
          else
            let child_dir := output_dir ++ '/' :: safe_title
            let st3 := { st2 with dirs := st2.dirs ++ [child_dir] }
            res.1.foldl
              (fun acc cid =>
                if acc.2 = true then
                  exportFuel w fuel' cid child_dir (depth + 1) max_depth acc.1
                else acc)
              (st3, true)

/-- `export_page_with_children(page_id, output_dir, depth, max_depth)`:
the fuel `max_depth + 1 - depth` is positive exactly while the depth
guard admits the call, and each recursive call increases `depth` by one
while decreasing the fuel by one, so the fuel never runs out. -/
def export_page_with_children (w : World) (page_id : String)
    (output_dir : List Char) (depth max_depth : Nat) (st : ExportState) :
    ExportState × Bool :=
  exportFuel w (max_depth + 1 - depth) page_id output_dir depth max_depth st

/-! ## API client response handling -/

/-- A JSON value, as returned by `json.loads`. -/
inductive Json where
  | null
  | str (s : List Char)
  | num (n : Int)
  | arr (elems : List Json)
  | obj (fields : List (String × Json))

/-- `data.get('results', [])` on a JSON object `data` given as its field
list (api_client.py line 113 and export_confluence.py line 99): the value
of the `'results'` key, or the empty list when the key is absent.
Python dict lookup returns the most recent binding, i.e. the last
occurrence in the field list. -/
def childPagesOfResponse (data : List (String × Json)) : Json :=
  match data.reverse.lookup "results" with
  | some v => v
  | none => Json.arr []

/-! ## Configuration loading (config.py) -/

/-- Python's `a or b` on optional strings (`None` and `''` are falsy):
used by `ConfluenceConfig.__init__` (config.py lines 46-48) to combine
the dotfile value with the OS environment value. -/
def pyOrStr (a b : Option (List Char)) : Option (List Char) :=
  match a with
  | none => b
  | some v => if v.isEmpty then b else some v

/-- `[A-Za-z_]`, the first character of a dotfile key. -/
def isIdentStart (c : Char) : Bool := c.isAlpha || c = '_'

/-- `[A-Za-z0-9_]`, the remaining characters of a dotfile key. -/
def isIdentChar (c : Char) : Bool := c.isAlphanum || c = '_'

/-- Quote removal from `_load_env_file` (config.py lines 92-94): when the
value both starts and ends with `'"'` (or both with `'\''`), drop its
first and last character.  A single quote character satisfies both tests
and becomes the empty string, as in the source. -/
def unquoteValue (v : List Char) : List Char :=
  if (v.head? = some '"' && v.getLast? = some '"') ||
     (v.head? = some '\'' && v.getLast? = some '\'') then
    (v.drop 1).dropLast
  else v

/-- One iteration of the `_load_env_file` loop (config.py lines 73-96)
on a single line: strip it, skip blanks and comments, match
`^([A-Za-z_][A-Za-z0-9_]*)\s*=\s*(.*)$`, strip and unquote the value.
Returns the `(key, value)` binding, or `none` when the line is skipped. -/
def parseEnvLine (raw : List Char) : Option (List Char × List Char) :=
  let line := pyStrip raw
  match line with
  | [] => none
  | c :: rest =>
    if c = '#' then none
    else if isIdentStart c then
      let key := c :: rest.takeWhile isIdentChar
      let afterKey := (rest.dropWhile isIdentChar).dropWhile pyIsSpace
      match afterKey with
      | '=' :: valRaw =>
        let value := pyStrip (valRaw.dropWhile pyIsSpace)
        some (key, unquoteValue value)
      | _ => none
    else none

/-- `_load_env_file` over the lines of the dotfile: the returned dict,
as the list of bindings in file order. -/
def loadEnvFile (lines : List (List Char)) : List (List Char × List Char) :=
  lines.filterMap parseEnvLine

/-- Python dict lookup on the accumulated bindings (`env_vars.get(k)`):
the last binding wins. -/
def envGet (vars : List (List Char × List Char)) (k : List Char) :
    Option (List Char) :=
  vars.reverse.lookup k

/-- One configuration key as resolved by `ConfluenceConfig.__init__`
(config.py lines 46-48): `env_vars.get(KEY) or os.getenv(KEY)`. -/
def resolveConfigKey (vars : List (List Char × List Char))
    (osEnv : List Char → Option (List Char)) (k : List Char) :
    Option (List Char) :=
  pyOrStr (envGet vars k) (osEnv k)

/-! ## Concrete worlds used by witnesses and counterexamples -/

/-- A sample page. -/
def pageA : Page := ⟨"A".toList, "<p>x</p>".toList⟩

/-- A second sample page. -/
def pageB : Page := ⟨"B".toList, "y".toList⟩

/-- A server with a root page `"1"` that has exactly one child `"2"`. -/
def worldOneChild : World where
  pages := fun s => if s = "1" then some pageA else if s = "2" then some pageB else none
  children := fun s => if s = "1" then some ["2"] else some []

/-- A server on which every page-body fetch fails. -/
def worldFailBody : World where
  pages := fun _ => none
  children := fun _ => some []

/-- A server on which the body fetch of `"1"` succeeds but every
children-list fetch fails. -/
def worldFailChildren : World where
  pages := fun s => if s = "1" then some pageA else none
  children := fun _ => none

/-- A cyclic page graph: `"1"` lists itself as its own child. -/
def worldCyclic : World where
  pages := fun _ => some pageA
  children := fun _ => some ["1"]

/-! ## Well-formed markup

`BF` ("bracket-free") and `GoodTags` describe strings in which every
`'<'` opens a tag whose inner text is bracket-free and nonempty and every
`'>'` closes one.  All substitution passes of `html_to_markdown` preserve
`GoodTags` (given the entity restrictions of the amended C4), and the
final tag-stripping pass maps a `GoodTags` string to a bracket-free one. -/

/-- A string with no angle bracket at all. -/
def BF (s : List Char) : Prop := ∀ c ∈ s, c ≠ '<' ∧ c ≠ '>'

/-- Strings made of bracket-free characters and well-formed tags
`'<' :: inner ++ '>' :: _` with `inner` nonempty and bracket-free. -/
inductive GoodTags : List Char → Prop
  | nil : GoodTags []
  | chr {c : Char} {s : List Char} :
      c ≠ '<' → c ≠ '>' → GoodTags s → GoodTags (c :: s)
  | tag {inner s : List Char} :
      inner ≠ [] → BF inner → GoodTags s → GoodTags ('<' :: inner ++ '>' :: s)

/-- A substitution rule that preserves `GoodTags`: on a `GoodTags` input
its replacement and remainder are `GoodTags`, and when fired inside a tag
(input `w ++ '>' :: t` with `w` bracket-free) it consumes only
bracket-free characters before the `'>'` and emits a nonempty
bracket-free replacement. -/
def SafeRule (try1 : List Char → Option (List Char × List Char)) : Prop :=
  ∀ r rep rest, try1 r = some (rep, rest) →
    (GoodTags r → GoodTags rep ∧ GoodTags rest) ∧
    (∀ w t, r = w ++ '>' :: t → BF w →
      rep ≠ [] ∧ BF rep ∧ ∃ w₂, BF w₂ ∧ rest = w₂ ++ '>' :: t)

/-! ## The input grammar of claim C4

Well-formed single-level HTML over the handled tags: text chunks free of
`'<'`, `'>'`, `'&'`; `<em>`/`<strong>` around plain text; `<br/>`;
headers `<h1>`..`<h4>` and paragraphs around inline content.  Following
the amended C4, the ampersand-spelled entities are excluded and only the
literal non-breaking-space and ellipsis characters are kept. -/

/-- A character of plain character data: not a bracket, not `'&'`. -/
def cleanChar (c : Char) : Bool := !(c = '<' || c = '>' || c = '&')

/-- The special characters kept by the amended C4. -/
inductive Ent where
  | nbspChar
  | hellip

/-- Inline content appearing in headers, paragraphs, or at top level. -/
inductive Inline where
  | txt (s : List Char) (h : s.all cleanChar = true)
  | ent (e : Ent)
  | br
  | em (s : List Char) (h : s.all cleanChar = true)
  | strong (s : List Char) (h : s.all cleanChar = true)

/-- A block of the document: a header, a paragraph, or stray inline
content between blocks. -/
inductive Block where
  | h1 (content : List Inline)
  | h2 (content : List Inline)
  | h3 (content : List Inline)
  | h4 (content : List Inline)
  | para (content : List Inline)
  | stray (i : Inline)

/-- Render one special character. -/
def renderEnt : Ent → List Char
  | .nbspChar => ['\xa0']
  | .hellip => ['…']

/-- Render one inline item to HTML. -/
def renderInline : Inline → List Char
  | .txt s _ => s
  | .ent e => renderEnt e
  | .br => "<br/>".toList
  | .em s _ => "<em>".toList ++ s ++ "</em>".toList
  | .strong s _ => "<strong>".toList ++ s ++ "</strong>".toList

/-- Render a list of inline items. -/
def renderInlines (l : List Inline) : List Char :=
  (l.map renderInline).flatten

/-- Render one block to HTML. -/
def renderBlock : Block → List Char
  | .h1 c => "<h1>".toList ++ renderInlines c ++ "</h1>".toList
  | .h2 c => "<h2>".toList ++ renderInlines c ++ "</h2>".toList
  | .h3 c => "<h3>".toList ++ renderInlines c ++ "</h3>".toList
  | .h4 c => "<h4>".toList ++ renderInlines c ++ "</h4>".toList
  | .para c => "<p>".toList ++ renderInlines c ++ "</p>".toList
  | .stray i => renderInline i

/-- Render a document (a block list) to a single HTML string. -/
def renderDoc (d : List Block) : List Char :=
  (d.map renderBlock).flatten

/-! ## Basic facts about the substitution scanner -/

theorem subScanFuel_id (try1 : List Char → Option (List Char × List Char)) :
    ∀ (fuel : Nat) (s : List Char),
      (∀ t, t <:+ s → try1 t = none) → subScanFuel try1 fuel s = s := by
  intro fuel
  induction fuel with
  | zero => intro s _; rfl
  | succ n ih =>
    intro s h
    cases s with
    | nil => rfl
    | cons c rest =>
      have hnone : try1 (c :: rest) = none := h _ List.suffix_rfl
      simp only [subScanFuel, hnone]
      exact congrArg (c :: ·) (ih rest fun t ht => h t (ht.trans (List.suffix_cons c rest)))

theorem subScan_id (try1 : List Char → Option (List Char × List Char))
    (s : List Char) (h : ∀ t, t <:+ s → try1 t = none) : subScan try1 s = s :=
  subScanFuel_id try1 s.length s h

theorem tryExact_head {mid close wl wr s x}
    (h : tryExact mid close wl wr s = some x) : s.head? = some '<' := by
  unfold tryExact at h
  split at h
  · next hp =>
    obtain ⟨t, rfl⟩ := List.isPrefixOf_iff_prefix.mp hp
    rfl
  · exact absurd h (by simp)

theorem tryAttrs_head {lead b close wl wr s x}
    (h : tryAttrs lead b close wl wr s = some x) : s.head? = some '<' := by
  unfold tryAttrs at h
  split at h
  · next hp =>
    obtain ⟨t, rfl⟩ := List.isPrefixOf_iff_prefix.mp hp
    rfl
  · exact absurd h (by simp)

theorem tryBr_head {s x} (h : tryBr s = some x) : s.head? = some '<' := by
  unfold tryBr at h
  split at h
  · next hp =>
    obtain ⟨t, rfl⟩ := List.isPrefixOf_iff_prefix.mp hp
    rfl
  · exact absurd h (by simp)

theorem tryTag_head {s x} (h : tryTag s = some x) : s.head? = some '<' := by
  unfold tryTag at h
  split at h
  · next hp => exact hp
  · exact absurd h (by simp)

theorem tryReplace_matches {pat rep s x}
    (h : tryReplace pat rep s = some x) : pat <+: s := by
  unfold tryReplace at h
  split at h
  · next hp => exact List.isPrefixOf_iff_prefix.mp hp
  · exact absurd h (by simp)

theorem tryCollapse_matches {s x}
    (h : tryCollapse s = some x) : ['\n', '\n', '\n'] <+: s := by
  unfold tryCollapse at h
  split at h
  · next hp => exact List.isPrefixOf_iff_prefix.mp hp
  · exact absurd h (by simp)

theorem mem_of_head?_lt {t : List Char} (h : t.head? = some '<') : '<' ∈ t := by
  cases t with
  | nil => exact absurd h (by simp)
  | cons c r => simp only [List.head?_cons, Option.some.injEq] at h; simp [h]

/-- A scan whose rule fires only at `'<'` is the identity on `'<'`-free text. -/
theorem subScan_id_of_head_lt (try1 : List Char → Option (List Char × List Char))
    (hhead : ∀ t x, try1 t = some x → t.head? = some '<')
    (s : List Char) (h : '<' ∉ s) : subScan try1 s = s :=
  subScan_id try1 s fun t ht => by
    cases htry : try1 t with
    | none => rfl
    | some x => exact absurd (ht.mem (mem_of_head?_lt (hhead t x htry))) h

/-- A replace pass is the identity when its pattern occurs nowhere. -/
theorem subScan_replace_id (pat rep : List Char) (s : List Char)
    (h : ¬ pat <:+: s) : subScan (tryReplace pat rep) s = s :=
  subScan_id _ s fun t ht => by
    cases htry : tryReplace pat rep t with
    | none => rfl
    | some x => exact absurd ((tryReplace_matches htry).isInfix.trans ht.isInfix) h

/-- The newline-collapsing pass is the identity when no triple newline occurs. -/
theorem subScan_collapse_id (s : List Char)
    (h : ¬ ['\n', '\n', '\n'] <:+: s) : subScan tryCollapse s = s :=
  subScan_id _ s fun t ht => by
    cases htry : tryCollapse t with
    | none => rfl
    | some x => exact absurd ((tryCollapse_matches htry).isInfix.trans ht.isInfix) h

/-! ## Sanitizer lemmas -/

theorem mem_stripDotSpace {c : Char} {l : List Char} (h : c ∈ stripDotSpace l) :
    c ∈ l := by
  unfold stripDotSpace at h
  rw [List.mem_reverse] at h
  have h2 := (List.dropWhile_sublist isDotSpace).mem h
  rw [List.mem_reverse] at h2
  exact (List.dropWhile_sublist isDotSpace).mem h2

theorem mem_sanitize {c : Char} {s : List Char} (h : c ∈ sanitize_filename s) :
    c ∈ s.map (fun c => if badFileChar c then '_' else c) := by
  simp only [sanitize_filename] at h
  split at h
  · exact mem_stripDotSpace ((List.take_sublist 200 _).mem h)
  · exact mem_stripDotSpace h

theorem map_sanitize_id {s : List Char} (h : ∀ c ∈ s, badFileChar c = false) :
    s.map (fun c => if badFileChar c then '_' else c) = s := by
  induction s with
  | nil => rfl
  | cons c t ih =>
    simp only [List.map_cons, h c (List.mem_cons_self c t), if_false,
      Bool.false_eq_true]
    exact congrArg (c :: ·) (ih fun a ha => h a (List.mem_cons_of_mem c ha))

theorem stripDotSpace_id {s : List Char}
    (hh : ∀ c, s.head? = some c → isDotSpace c = false)
    (hl : ∀ c, s.getLast? = some c → isDotSpace c = false) :
    stripDotSpace s = s := by
  unfold stripDotSpace
  have d1 : s.dropWhile isDotSpace = s := by
    cases s with
    | nil => rfl
    | cons c t =>
      rw [List.dropWhile_cons, hh c rfl]
      simp
  rw [d1]
  have d2 : s.reverse.dropWhile isDotSpace = s.reverse := by
    cases hrev : s.reverse with
    | nil => rfl
    | cons c t =>
      have hc : s.getLast? = some c := by
        rw [← List.head?_reverse, hrev, List.head?_cons]
      rw [List.dropWhile_cons, hl c hc]
      simp
  rw [d2, List.reverse_reverse]

/-! ## Claim C7 -/

/-- C7: for every input, the sanitizer's output contains none of the
characters `< > : " / \ | ? *` and has length at most 200; and on an
input already free of those characters, with no leading/trailing space
or period and length at most 200, the sanitizer is a no-op. -/
theorem C7_sanitize_filename (s : List Char) :
    (∀ c ∈ sanitize_filename s, badFileChar c = false) ∧
    (sanitize_filename s).length ≤ 200 ∧
    ((∀ c ∈ s, badFileChar c = false) →
     (∀ c, s.head? = some c → isDotSpace c = false) →
     (∀ c, s.getLast? = some c → isDotSpace c = false) →
     s.length ≤ 200 → sanitize_filename s = s) := by
  refine ⟨?_, ?_, ?_⟩
  · intro c hc
    obtain ⟨a, _, ha⟩ := List.mem_map.mp (mem_sanitize hc)
    by_cases hb : badFileChar a
    · rw [hb] at ha
      simp only [if_true] at ha
      rw [← ha]
      decide
    · rw [if_neg hb] at ha
      rw [← ha]
      exact Bool.of_not_eq_true hb
  · simp only [sanitize_filename]
    split
    · simp
    · next hle => omega
  · intro hfree hh hl hlen
    simp only [sanitize_filename]
    rw [map_sanitize_id hfree, stripDotSpace_id hh hl, if_neg (by omega)]

/-- C7 witness: a clean short title is returned unchanged, and the
universal clauses hold on it. -/
theorem C7_witness :
    sanitize_filename "My Page".toList = "My Page".toList :=
  (C7_sanitize_filename "My Page".toList).2.2 (by decide) (by decide)
    (by decide) (by decide)

/-! ## Claim C5 -/

/-- C5 as stated is false: `"a&amp;b"` contains no HTML tags (not even an
angle bracket), and trimming it is the identity, yet the converter
rewrites it to `"a&b"`. -/
theorem C5_counterexample :
    ('<' ∉ "a&amp;b".toList ∧ '>' ∉ "a&amp;b".toList ∧
      pyStrip "a&amp;b".toList = "a&amp;b".toList) ∧
    html_to_markdown "a&amp;b".toList ≠ "a&amp;b".toList := by
  refine ⟨by decide, by decide⟩

/-- C5 (amended): on input with no `'<'` (hence no tag), no occurrence of
any of the five entity/special forms, and no run of three newlines, the
converter returns the input unchanged except for whitespace trimming. -/
theorem C5_plain_text_trim_only (s : List Char)
    (h1 : '<' ∉ s)
    (h2 : ¬ "&nbsp;".toList <:+: s) (h3 : '\xa0' ∉ s)
    (h4 : ¬ "&amp;".toList <:+: s) (h5 : ¬ "&lt;".toList <:+: s)
    (h6 : ¬ "&gt;".toList <:+: s) (h7 : '…' ∉ s)
    (h8 : ¬ ['\n', '\n', '\n'] <:+: s) :
    html_to_markdown s = pyStrip s := by
  have e1 : ∀ lead b close wl wr, subScan (tryAttrs lead b close wl wr) s = s :=
    fun lead b close wl wr =>
      subScan_id_of_head_lt _ (fun t x h => tryAttrs_head h) s h1
  have e2 : ∀ mid close wl wr, subScan (tryExact mid close wl wr) s = s :=
    fun mid close wl wr =>
      subScan_id_of_head_lt _ (fun t x h => tryExact_head h) s h1
  have e3 : subScan tryBr s = s :=
    subScan_id_of_head_lt _ (fun t x h => tryBr_head h) s h1
  have e4 : subScan tryTag s = s :=
    subScan_id_of_head_lt _ (fun t x h => tryTag_head h) s h1
  have i3 : ¬ ['\xa0'] <:+: s := fun hin => h3 (hin.mem (by simp))
  have i7 : ¬ ['…'] <:+: s := fun hin => h7 (hin.mem (by simp))
  simp only [html_to_markdown]
  rw [e1, e1, e1, e1, e2, e1, e2, e2, e3,
    subScan_replace_id _ _ _ h2, subScan_replace_id _ _ _ i3,
    subScan_replace_id _ _ _ h4, subScan_replace_id _ _ _ h5,
    subScan_replace_id _ _ _ h6, subScan_replace_id _ _ _ i7,
    e4, subScan_collapse_id _ h8]

/-- C5 witness: the amended statement applied at a concrete plain text. -/
theorem C5_witness :
    html_to_markdown "  plain text. ".toList = pyStrip "  plain text. ".toList :=
  C5_plain_text_trim_only _ (by decide) (by decide) (by decide) (by decide)
    (by decide) (by decide) (by decide) (by decide)

/-! ## Claim C6 -/

/-- C6 as stated is false: the source's final `.strip()` removes the
trailing blank line, so the converter does not return
`"## Title\nHello **world**\n\n"` on Scenario A's input. -/
theorem C6_counterexample :
    html_to_markdown "<h2>Title</h2><p>Hello <strong>world</strong></p>".toList ≠
      "## Title\nHello **world**\n\n".toList := by decide

/-- C6 (amended): on Scenario A's input the converter returns
`"## Title\nHello **world**"` — the same string up to the final trim,
which removes the trailing two newlines. -/
theorem C6_scenarioA :
    html_to_markdown "<h2>Title</h2><p>Hello <strong>world</strong></p>".toList =
      "## Title\nHello **world**".toList := by decide

/-! ## Tree-exporter lemmas -/

/-- The depth guard fires before anything else, for any fuel. -/
theorem exportFuel_guard (w : World) (fuel : Nat) (pid : String) (dir : List Char)
    (depth max_depth : Nat) (st : ExportState) (h : depth > max_depth) :
    exportFuel w fuel pid dir depth max_depth st
      = ({ st with depthWarnings := st.depthWarnings + 1 }, true) := by
  rw [exportFuel.eq_def]
  rw [if_pos h]

/-- A sibling loop run at an out-of-bounds depth only counts warnings. -/
theorem exportFuel_loop_guard (w : World) (dir : List Char) (d m : Nat) (hd : d > m)
    (l : List String) (s : ExportState) :
    l.foldl (fun acc cid => if acc.2 = true then exportFuel w 0 cid dir d m acc.1 else acc)
        (s, true)
      = ({ s with depthWarnings := s.depthWarnings + l.length }, true) := by
  induction l generalizing s with
  | nil => simp
  | cons c t ih =>
    simp only [List.foldl_cons, if_pos, exportFuel_guard w 0 c dir d m s hd]
    rw [ih]
    have harith : s.depthWarnings + 1 + t.length = s.depthWarnings + (t.length + 1) := by omega
    simp [harith]

/-! ## Claim C1 -/

/-- C1 as stated is false: with `maxDepth = 0` and a root that has one
child, exactly one file is written, but the child subdirectory is still
created (the source creates it before recursing, and only the recursive
calls are stopped by the depth guard), so the number of created
subdirectories is 1, not 0. -/
theorem C1_counterexample :
    (export_page_with_children worldOneChild "1" "out".toList 0 0
        ExportState.init).1.files.length = 1 ∧
    (export_page_with_children worldOneChild "1" "out".toList 0 0
        ExportState.init).1.dirs.length ≠ 0 := by decide

/-- C1 (amended): exporting with `maxDepth = 0` writes exactly one file
(the root page's own file) and creates one (empty) subdirectory when the
root has at least one child, and none when it has no children. -/
theorem C1_max_depth_zero (w : World) (root : String) (dir : List Char) (pg : Page)
    (cs : List String) (hp : w.pages root = some pg) (hc : w.children root = some cs) :
    (export_page_with_children w root dir 0 0 ExportState.init).1.files.length = 1 ∧
    (export_page_with_children w root dir 0 0 ExportState.init).1.dirs.length
      = (if cs.isEmpty then 0 else 1) := by
  unfold export_page_with_children
  rw [show (0 + 1 - 0 : Nat) = 1 by omega, exportFuel.eq_def]
  rw [if_neg (by omega)]
  simp only [hp, hc]
  cases cs with
  | nil => simp [ExportState.init, export_page_to_markdown]
  | cons c cs' =>
    rw [if_neg (by simp)]
    rw [exportFuel_loop_guard w _ (0 + 1) 0 (by omega)]
    simp [ExportState.init, export_page_to_markdown]

/-- C1 witness: the amended statement applied at a root with one child. -/
theorem C1_witness :
    (export_page_with_children worldOneChild "1" "out".toList 0 0
        ExportState.init).1.files.length = 1 ∧
    (export_page_with_children worldOneChild "1" "out".toList 0 0
        ExportState.init).1.dirs.length = (if (["2"] : List String).isEmpty then 0 else 1) :=
  C1_max_depth_zero worldOneChild "1" "out".toList pageA ["2"] rfl rfl

/-! ## Claim C2 -/

/-- C2: within the depth bound, a failing page-body fetch aborts the
whole export with no file written for that page (the abort flag
propagates, so siblings are skipped), whereas a failing children-list
fetch is caught locally: the page's own file is in place, one
children-fetch warning is counted, no subdirectory is created, and the
call returns successfully so the walk continues to siblings. -/
theorem C2_failure_asymmetry (w : World) (pid : String) (dir : List Char)
    (depth max_depth : Nat) (st : ExportState) (pg : Page) (hle : depth ≤ max_depth) :
    (w.pages pid = none →
      export_page_with_children w pid dir depth max_depth st
        = ({ st with fetches := st.fetches ++ [pid] }, false)) ∧
    (w.pages pid = some pg → w.children pid = none →
      export_page_with_children w pid dir depth max_depth st
        = ({ st with
               fetches := st.fetches ++ [pid, pid],
               files := st.files ++
                 [(dir ++ '/' :: sanitize_filename pg.title ++ ".md".toList,
                   "# ".toList ++ pg.title ++ "\n\n".toList ++
                     html_to_markdown pg.body ++ ['\n'])],
               childFetches := st.childFetches ++ [pid],
               childWarnings := st.childWarnings + 1 }, true)) := by
  have hfuel : max_depth + 1 - depth = (max_depth - depth) + 1 := by omega
  constructor
  · intro hn
    unfold export_page_with_children
    rw [hfuel, exportFuel.eq_def]
    rw [if_neg (by omega)]
    simp only [hn]
  · intro hp hc
    unfold export_page_with_children
    rw [hfuel, exportFuel.eq_def]
    rw [if_neg (by omega)]
    simp only [hp, hc]
    simp [export_page_to_markdown]

/-- C2 witness: both failure modes at concrete worlds — the body-fetch
failure aborts with nothing written, the children-fetch failure leaves
the page's file on disk and returns successfully. -/
theorem C2_witness :
    export_page_with_children worldFailBody "1" "out".toList 0 10 ExportState.init
      = ({ ExportState.init with fetches := ["1"] }, false) ∧
    ((export_page_with_children worldFailChildren "1" "out".toList 0 10
        ExportState.init).1.files.length = 1 ∧
     (export_page_with_children worldFailChildren "1" "out".toList 0 10
        ExportState.init).2 = true) := by
  constructor
  · exact (C2_failure_asymmetry worldFailBody "1" "out".toList 0 10
      ExportState.init pageA (by omega)).1 rfl
  · rw [(C2_failure_asymmetry worldFailChildren "1" "out".toList 0 10
      ExportState.init pageA (by omega)).2 rfl rfl]
    exact ⟨rfl, rfl⟩

/-! ## Claim C3 -/

/-- C3: the depth guard makes the walk terminate on any page graph,
cycles included: a call with `depth > maxDepth` returns immediately —
before any fetch, with only a warning emitted — and a call at
`depth = maxDepth` exports its own node (two body fetches, by the
source's double `get_page`) but never fetches the body of any child,
whatever the children list contains.  (Termination itself is witnessed
by `export_page_with_children` being a total function whose fuel
`maxDepth + 1 - depth` strictly decreases as `depth` increases by one
per recursive call.) -/
theorem C3_depth_guard_termination (w : World) (pid : String) (dir : List Char)
    (depth max_depth : Nat) (st : ExportState) (pg : Page) :
    (depth > max_depth →
      export_page_with_children w pid dir depth max_depth st
        = ({ st with depthWarnings := st.depthWarnings + 1 }, true)) ∧
    (depth = max_depth → w.pages pid = some pg →
      (export_page_with_children w pid dir depth max_depth st).1.fetches
          = st.fetches ++ [pid, pid] ∧
      (export_page_with_children w pid dir depth max_depth st).2 = true) := by
  constructor
  · intro h
    unfold export_page_with_children
    exact exportFuel_guard w _ pid dir depth max_depth st h
  · intro hd hp
    subst hd
    unfold export_page_with_children
    rw [show depth + 1 - depth = 1 by omega, exportFuel.eq_def]
    rw [if_neg (by omega)]
    simp only [hp]
    cases hc : w.children pid with
    | none => simp
    | some cs =>
      cases cs with
      | nil => simp
      | cons c cs' =>
        rw [if_neg (by simp)]
        rw [exportFuel_loop_guard w _ (depth + 1) depth (by omega)]
        simp

/-- C3 witness: applied on a cyclic graph (page `"1"` is its own child):
above the bound the call returns at once, and at the bound the node is
exported without fetching any child body — the export terminates. -/
theorem C3_witness :
    export_page_with_children worldCyclic "1" "out".toList 2 1 ExportState.init
      = ({ ExportState.init with depthWarnings := 1 }, true) ∧
    (export_page_with_children worldCyclic "1" "out".toList 1 1
        ExportState.init).1.fetches = ["1", "1"] := by
  constructor
  · exact (C3_depth_guard_termination worldCyclic "1" "out".toList 2 1
      ExportState.init pageA).1 (by omega)
  · exact ((C3_depth_guard_termination worldCyclic "1" "out".toList 1 1
      ExportState.init pageA).2 rfl rfl).1

/-! ## Claim C8 -/

/-- C8: when the children-list response is a JSON object with no
`'results'` key, `get_child_pages` returns the empty list (no error),
exactly as for a page with no children. -/
theorem C8_missing_results_key (data : List (String × Json))
    (h : data.reverse.lookup "results" = none) :
    childPagesOfResponse data = Json.arr [] ∧
    childPagesOfResponse data = childPagesOfResponse [("results", Json.arr [])] := by
  unfold childPagesOfResponse
  rw [h]
  exact ⟨rfl, rfl⟩

/-- C8 witness: a well-formed response object carrying only a `size`
field yields the empty child list. -/
theorem C8_witness :
    childPagesOfResponse [("size", Json.num 0)] = Json.arr [] :=
  (C8_missing_results_key [("size", Json.num 0)] rfl).1

/-! ## Claim C9 -/

/-- C9: a dotfile entry whose value is the empty string is treated as
absent: `env_vars.get(KEY) or os.getenv(KEY)` falls back to the OS
environment because the empty string is falsy; and such empty-valued
entries do arise from the dotfile parser (e.g. the line `KEY=`). -/
theorem C9_empty_dotfile_value (vars : List (List Char × List Char))
    (osEnv : List Char → Option (List Char)) (k : List Char)
    (h : envGet vars k = some []) :
    resolveConfigKey vars osEnv k = osEnv k ∧
    parseEnvLine "CONFLUENCE_API_TOKEN=".toList
      = some ("CONFLUENCE_API_TOKEN".toList, []) := by
  constructor
  · unfold resolveConfigKey
    rw [h]
    rfl
  · decide

/-- C9 witness: with the dotfile consisting of the single line
`CONFLUENCE_API_TOKEN=""` and the OS environment carrying a token, the
resolved value is the OS one. -/
theorem C9_witness :
    resolveConfigKey (loadEnvFile ["CONFLUENCE_API_TOKEN=\"\"".toList])
        (fun k => if k = "CONFLUENCE_API_TOKEN".toList then some "tok".toList else none)
        "CONFLUENCE_API_TOKEN".toList
      = some "tok".toList := by
  rw [(C9_empty_dotfile_value (loadEnvFile ["CONFLUENCE_API_TOKEN=\"\"".toList])
      (fun k => if k = "CONFLUENCE_API_TOKEN".toList then some "tok".toList else none)
      "CONFLUENCE_API_TOKEN".toList (by decide)).1]
  decide

/-! ## Claim C10 -/

/-- C10: the single-page exporter always returns the full artifact
`"# {title}\n\n{converted body}\n"`; with no output path it writes no
file and prints the artifact to stdout, and with an output path it
writes exactly that artifact to that path. -/
theorem C10_single_export_frame (page : Page) (f : List Char) :
    (export_page_to_markdown page none).output
        = "# ".toList ++ page.title ++ "\n\n".toList ++
            html_to_markdown page.body ++ ['\n'] ∧
    (export_page_to_markdown page (some f)).output
        = (export_page_to_markdown page none).output ∧
    (export_page_to_markdown page none).written = [] ∧
    (export_page_to_markdown page none).printed
        = [(export_page_to_markdown page none).output] ∧
    (export_page_to_markdown page (some f)).written
        = [(f, (export_page_to_markdown page (some f)).output)] :=
  ⟨rfl, rfl, rfl, rfl, rfl⟩

/-! ## C4 machinery: closure lemmas for `BF` and `GoodTags` -/

theorem BF_nil : BF [] := fun c hc => absurd hc (List.not_mem_nil c)

theorem BF_cons {c : Char} {s : List Char} (h1 : c ≠ '<') (h2 : c ≠ '>')
    (hs : BF s) : BF (c :: s) := by
  intro a ha
  rcases List.mem_cons.mp ha with rfl | ha
  · exact ⟨h1, h2⟩
  · exact hs a ha

theorem BF_of_cons {c : Char} {s : List Char} (h : BF (c :: s)) : BF s :=
  fun a ha => h a (List.mem_cons_of_mem c ha)

theorem BF_head {c : Char} {s : List Char} (h : BF (c :: s)) : c ≠ '<' ∧ c ≠ '>' :=
  h c (List.mem_cons_self c s)

theorem BF_append {a b : List Char} (ha : BF a) (hb : BF b) : BF (a ++ b) := by
  intro c hc
  rcases List.mem_append.mp hc with h | h
  · exact ha c h
  · exact hb c h

theorem BF_append_left {a b : List Char} (h : BF (a ++ b)) : BF a :=
  fun c hc => h c (List.mem_append.mpr (Or.inl hc))

theorem BF_append_right {a b : List Char} (h : BF (a ++ b)) : BF b :=
  fun c hc => h c (List.mem_append.mpr (Or.inr hc))

theorem GoodTags_of_BF {s : List Char} (h : BF s) : GoodTags s := by
  induction s with
  | nil => exact GoodTags.nil
  | cons c t ih =>
    exact GoodTags.chr (BF_head h).1 (BF_head h).2 (ih (BF_of_cons h))

theorem GoodTags_append {a b : List Char} (ha : GoodTags a) (hb : GoodTags b) :
    GoodTags (a ++ b) := by
  induction ha with
  | nil => exact hb
  | chr h1 h2 _ ih => exact GoodTags.chr h1 h2 ih
  | tag hne hbf _ ih =>
    have h := GoodTags.tag hne hbf ih
    simpa using h

/-- Inversion: a `GoodTags` string starting with a non-`'<'` character
continues as a `GoodTags` string. -/
theorem GoodTags_cons_inv {c : Char} {l : List Char} (h : GoodTags (c :: l))
    (hc : c ≠ '<') : GoodTags l := by
  generalize hgen : c :: l = r at h
  cases h with
  | nil => exact absurd hgen (by simp)
  | chr h1 h2 h3 =>
    injection hgen with e1 e2
    rw [e2]; exact h3
  | tag hne hbf hgt =>
    rw [List.cons_append] at hgen
    injection hgen with e1 _
    exact absurd e1 hc

theorem GoodTags_drop_BF : ∀ {a b : List Char}, GoodTags (a ++ b) → BF a → GoodTags b := by
  intro a
  induction a with
  | nil => exact fun h _ => h
  | cons c t ih =>
    intro b h hbf
    exact ih (GoodTags_cons_inv h (BF_head hbf).1) (BF_of_cons hbf)

/-! ## C4 machinery: `splitAtFirstGt` and prefix facts -/

theorem splitAtFirstGt_eq {s a b : List Char} (h : splitAtFirstGt s = some (a, b)) :
    s = a ++ '>' :: b ∧ '>' ∉ a := by
  induction s generalizing a b with
  | nil => simp [splitAtFirstGt] at h
  | cons c rest ih =>
    rw [splitAtFirstGt] at h
    split at h
    · next hc =>
      obtain ⟨rfl, rfl⟩ := Prod.mk.injEq _ _ _ _ ▸ Option.some.inj h
      exact ⟨by rw [hc]; rfl, by simp⟩
    · next hc =>
      cases hsp : splitAtFirstGt rest with
      | none => rw [hsp] at h; exact absurd h (by simp)
      | some p =>
        obtain ⟨a', b'⟩ := p
        rw [hsp] at h
        obtain ⟨rfl, rfl⟩ := Prod.mk.injEq _ _ _ _ ▸ Option.some.inj h
        obtain ⟨he, hm⟩ := ih hsp
        refine ⟨by rw [he]; rfl, ?_⟩
        intro hmem
        rcases List.mem_cons.mp hmem with hh | hh
        · exact hc hh.symm
        · exact hm hh

theorem splitAtFirstGt_of {inner t : List Char} (h : '>' ∉ inner) :
    splitAtFirstGt (inner ++ '>' :: t) = some (inner, t) := by
  induction inner with
  | nil => simp [splitAtFirstGt]
  | cons c r ih =>
    have hc : ¬ c = '>' := fun hh => h (by simp [hh])
    rw [List.cons_append, splitAtFirstGt, if_neg hc, ih (fun hm => h (List.mem_cons_of_mem c hm))]

theorem prefix_of_append_gt :
    ∀ {pat w t : List Char}, pat <+: (w ++ '>' :: t) → (∀ c ∈ pat, c ≠ '>') →
      ∃ w', w = pat ++ w' := by
  intro pat
  induction pat with
  | nil => exact fun {w t} _ _ => ⟨w, rfl⟩
  | cons c p' ih =>
    intro w t hp hgt
    cases w with
    | nil =>
      obtain ⟨u, hu⟩ := hp
      rw [List.cons_append] at hu
      injection hu with h1 _
      exact absurd h1 (hgt c (List.mem_cons_self c p'))
    | cons a w'' =>
      obtain ⟨u, hu⟩ := hp
      rw [List.cons_append] at hu
      injection hu with h1 h2
      obtain ⟨w₃, hw₃⟩ := ih ⟨u, h2⟩ (fun x hx => hgt x (List.mem_cons_of_mem c hx))
      exact ⟨w₃, by rw [hw₃, ← h1, List.cons_append]⟩

theorem prefix_tag_unique :
    ∀ {cmid inner t : List Char}, (∀ c ∈ cmid, c ≠ '>') → (∀ c ∈ inner, c ≠ '>') →
      (cmid ++ ['>']) <+: (inner ++ '>' :: t) → cmid = inner := by
  intro cmid
  induction cmid with
  | nil =>
    intro inner t _ hi hp
    cases inner with
    | nil => rfl
    | cons i is =>
      obtain ⟨u, hu⟩ := hp
      rw [List.nil_append, List.cons_append] at hu
      injection hu with h1 _
      exact absurd h1.symm (hi i (List.mem_cons_self i is))
  | cons c cm ih =>
    intro inner t hc hi hp
    cases inner with
    | nil =>
      obtain ⟨u, hu⟩ := hp
      rw [List.cons_append, List.nil_append] at hu
      injection hu with h1 _
      exact absurd h1 (hc c (List.mem_cons_self c cm))
    | cons i is =>
      obtain ⟨u, hu⟩ := hp
      rw [List.cons_append, List.cons_append] at hu
      injection hu with h1 h2
      have := ih (fun x hx => hc x (List.mem_cons_of_mem c hx))
        (fun x hx => hi x (List.mem_cons_of_mem i hx)) ⟨u, h2⟩
      rw [h1, this]

theorem drop_tag {mid t : List Char} :
    ('<' :: mid ++ '>' :: t).drop (mid.length + 2) = t := by
  have h : '<' :: mid ++ '>' :: t = ('<' :: mid ++ ['>']) ++ t := by simp
  have hl : ('<' :: mid ++ ['>']).length = mid.length + 2 := by
    simp [List.length_append]
  rw [h, ← hl, List.drop_left]

theorem GoodTags_lt_head {r : List Char} (hg : GoodTags r) (h : r.head? = some '<') :
    ∃ inner s, r = '<' :: inner ++ '>' :: s ∧ inner ≠ [] ∧ BF inner ∧ GoodTags s := by
  cases hg with
  | nil => exact absurd h (by simp)
  | chr h1 h2 h3 =>
    rw [List.head?_cons] at h
    exact absurd (Option.some.inj h) h1
  | tag hne hbf hgt => exact ⟨_, _, rfl, hne, hbf, hgt⟩

/-- Full inversion for `GoodTags` on a cons. -/
theorem GoodTags_cons_cases {c : Char} {l : List Char} (h : GoodTags (c :: l)) :
    (c ≠ '<' ∧ c ≠ '>' ∧ GoodTags l) ∨
    (∃ inner s, c = '<' ∧ l = inner ++ '>' :: s ∧ inner ≠ [] ∧ BF inner ∧ GoodTags s) := by
  generalize hgen : c :: l = r at h
  cases h with
  | nil => exact absurd hgen (by simp)
  | chr h1 h2 h3 =>
    injection hgen with e1 e2
    subst e1; subst e2
    exact Or.inl ⟨h1, h2, h3⟩
  | tag hne hbf hgt =>
    rw [List.cons_append] at hgen
    injection hgen with e1 e2
    exact Or.inr ⟨_, _, e1, e2, hne, hbf, hgt⟩

/-- `lazyUntil` with a closing-tag literal, on well-formed markup: in a
`GoodTags` string the captured group and the remainder are `GoodTags`;
started inside a tag (`w ++ '>' :: t` with `w` bracket-free), the group
is the rest of that tag followed by a `GoodTags` group. -/
theorem lazyUntil_good (cmid : List Char) (hcm : BF cmid) :
    ∀ n s, s.length ≤ n →
      (∀ g r, GoodTags s → lazyUntil ('<' :: cmid ++ ['>']) s = some (g, r) →
        GoodTags g ∧ GoodTags r) ∧
      (∀ w t g r, s = w ++ '>' :: t → BF w → GoodTags t →
        lazyUntil ('<' :: cmid ++ ['>']) s = some (g, r) →
        ∃ g₂, g = w ++ '>' :: g₂ ∧ GoodTags g₂ ∧ GoodTags r) := by
  have hcgt : ∀ c ∈ cmid, c ≠ '>' := fun c hc => (hcm c hc).2
  intro n
  induction n with
  | zero =>
    intro s hlen
    have hs : s = [] := List.eq_nil_of_length_eq_zero (Nat.le_zero.mp hlen)
    subst hs
    constructor
    · intro g r _ hlz
      exact absurd hlz (by simp [lazyUntil, List.isPrefixOf])
    · intro w t g r hseq
      exact absurd hseq (by simp)
  | succ n ih =>
    intro s hlen
    constructor
    · intro g r hg hlz
      cases s with
      | nil => exact absurd hlz (by simp [lazyUntil, List.isPrefixOf])
      | cons c rest =>
        rw [List.length_cons, Nat.succ_le_succ_iff] at hlen
        rw [lazyUntil] at hlz
        split at hlz
        · next hp =>
          have hinj := Option.some.inj hlz
          have hgq : g = [] := (congrArg Prod.fst hinj).symm
          have hrq : r = (c :: rest).drop ('<' :: cmid ++ ['>']).length :=
            (congrArg Prod.snd hinj).symm
          obtain ⟨u, hu⟩ := List.isPrefixOf_iff_prefix.mp hp
          have hchead : (c :: rest).head? = some '<' := by
            rw [List.cons_append] at hu
            injection hu with h1 _
            rw [List.head?_cons, h1]
          obtain ⟨inner, s', heq, hne, hbf, hgt⟩ := GoodTags_lt_head hg hchead
          have h2 : ('<' :: cmid ++ ['>']) ++ u = '<' :: inner ++ '>' :: s' :=
            hu.trans heq
          simp only [List.cons_append, List.append_assoc, List.singleton_append] at h2
          injection h2 with _ h3
          have hcin : cmid = inner :=
            prefix_tag_unique hcgt (fun x hx => (hbf x hx).2)
              ⟨u, by simp only [List.append_assoc, List.singleton_append]; exact h3⟩
          subst hcin
          have hclen : ('<' :: cmid ++ ['>']).length = cmid.length + 2 := by
            simp [List.length_append]
          rw [hgq, hrq, heq, hclen, drop_tag]
          exact ⟨GoodTags.nil, hgt⟩
        · split at hlz
          · exact absurd hlz (by simp)
          · cases hrec : lazyUntil ('<' :: cmid ++ ['>']) rest with
            | none => rw [hrec] at hlz; exact absurd hlz (by simp)
            | some p =>
              obtain ⟨g', r'⟩ := p
              rw [hrec] at hlz
              have hinj := Option.some.inj hlz
              have hgq : g = c :: g' := (congrArg Prod.fst hinj).symm
              have hrq : r = r' := (congrArg Prod.snd hinj).symm
              rw [hgq, hrq]
              rcases GoodTags_cons_cases hg with ⟨hc1, hc2, hgr⟩ |
                ⟨inner, s', rfl, rfl, hne, hbf, hgt⟩
              · obtain ⟨hg', hr'⟩ := (ih rest hlen).1 g' r' hgr hrec
                exact ⟨GoodTags.chr hc1 hc2 hg', hr'⟩
              · obtain ⟨g₂, hg₂eq, hg₂, hr'⟩ :=
                  (ih _ hlen).2 inner s' g' r' rfl hbf hgt hrec
                subst hg₂eq
                exact ⟨GoodTags.tag hne hbf hg₂, hr'⟩
    · intro w t g r hseq hw ht hlz
      subst hseq
      cases w with
      | nil =>
        rw [List.nil_append] at hlz
        rw [List.nil_append, List.length_cons, Nat.succ_le_succ_iff] at hlen
        rw [lazyUntil] at hlz
        split at hlz
        · next hp =>
          exfalso
          obtain ⟨u, hu⟩ := List.isPrefixOf_iff_prefix.mp hp
          rw [List.cons_append] at hu
          injection hu with h1 _
          exact absurd h1 (by decide)
        · split at hlz
          · exact absurd hlz (by simp)
          · cases hrec : lazyUntil ('<' :: cmid ++ ['>']) t with
            | none => rw [hrec] at hlz; exact absurd hlz (by simp)
            | some p =>
              obtain ⟨g', r'⟩ := p
              rw [hrec] at hlz
              have hinj := Option.some.inj hlz
              have hgq : g = '>' :: g' := (congrArg Prod.fst hinj).symm
              have hrq : r = r' := (congrArg Prod.snd hinj).symm
              rw [hgq, hrq]
              obtain ⟨hg', hr'⟩ := (ih t hlen).1 g' r' ht hrec
              exact ⟨g', rfl, hg', hr'⟩
      | cons cw w' =>
        rw [List.cons_append cw w' ('>' :: t)] at hlz
        rw [List.cons_append, List.length_cons, Nat.succ_le_succ_iff] at hlen
        rw [lazyUntil] at hlz
        split at hlz
        · next hp =>
          exfalso
          obtain ⟨u, hu⟩ := List.isPrefixOf_iff_prefix.mp hp
          rw [List.cons_append] at hu
          injection hu with h1 _
          exact absurd h1.symm (BF_head hw).1
        · split at hlz
          · exact absurd hlz (by simp)
          · cases hrec : lazyUntil ('<' :: cmid ++ ['>']) (w' ++ '>' :: t) with
            | none => rw [hrec] at hlz; exact absurd hlz (by simp)
            | some p =>
              obtain ⟨g', r'⟩ := p
              rw [hrec] at hlz
              have hinj := Option.some.inj hlz
              have hgq : g = cw :: g' := (congrArg Prod.fst hinj).symm
              have hrq : r = r' := (congrArg Prod.snd hinj).symm
              rw [hgq, hrq]
              obtain ⟨g₂, hg₂eq, hg₂, hr'⟩ :=
                (ih (w' ++ '>' :: t) hlen).2 w' t g' r' rfl (BF_of_cons hw) ht hrec
              subst hg₂eq
              exact ⟨g₂, by rw [List.cons_append], hg₂, hr'⟩

/-- The scanner preserves `GoodTags` for any `SafeRule`: on a `GoodTags`
input the output is `GoodTags`; scanning from inside a tag
(`w ++ '>' :: t`, `w` bracket-free) yields a bracket-free prefix, the
`'>'`, and a `GoodTags` continuation, the prefix nonempty whenever `w`
was. -/
theorem subScanFuel_good (try1 : List Char → Option (List Char × List Char))
    (hs : SafeRule try1) :
    ∀ fuel,
      (∀ r, GoodTags r → GoodTags (subScanFuel try1 fuel r)) ∧
      (∀ w t, BF w → GoodTags t →
        ∃ w₂ t₂, subScanFuel try1 fuel (w ++ '>' :: t) = w₂ ++ '>' :: t₂ ∧
          BF w₂ ∧ GoodTags t₂ ∧ (w ≠ [] → w₂ ≠ [])) := by
  intro fuel
  induction fuel with
  | zero =>
    constructor
    · intro r hg; exact hg
    · intro w t hw ht; exact ⟨w, t, rfl, hw, ht, fun h => h⟩
  | succ n ih =>
    obtain ⟨ihA, ihB⟩ := ih
    constructor
    · intro r hg
      cases r with
      | nil => exact GoodTags.nil
      | cons c rest =>
        cases htry : try1 (c :: rest) with
        | some p =>
          obtain ⟨rep, rst⟩ := p
          obtain ⟨hrep, hrst⟩ := (hs _ _ _ htry).1 hg
          have hstep : subScanFuel try1 (n + 1) (c :: rest)
              = rep ++ subScanFuel try1 n rst := by
            simp only [subScanFuel, htry]
          rw [hstep]
          exact GoodTags_append hrep (ihA _ hrst)
        | none =>
          have hstep : subScanFuel try1 (n + 1) (c :: rest)
              = c :: subScanFuel try1 n rest := by
            simp only [subScanFuel, htry]
          rcases GoodTags_cons_cases hg with ⟨h1, h2, h3⟩ |
            ⟨inner, s', rfl, rfl, hne, hbf, hgt⟩
          · rw [hstep]
            exact GoodTags.chr h1 h2 (ihA _ h3)
          · rw [hstep]
            obtain ⟨w₂, t₂, heq2, hw₂, ht₂, hnee⟩ := ihB inner s' hbf hgt
            rw [heq2]
            exact GoodTags.tag (hnee hne) hw₂ ht₂
    · intro w t hw ht
      cases w with
      | nil =>
        cases htry : try1 ([] ++ '>' :: t) with
        | some p =>
          obtain ⟨rep, rst⟩ := p
          obtain ⟨hne, hrepBF, w₃, hw₃, hrst⟩ := (hs _ _ _ htry).2 [] t rfl BF_nil
          subst hrst
          obtain ⟨w₂, t₂, heq, hw₂, ht₂, _⟩ := ihB w₃ t hw₃ ht
          refine ⟨rep ++ w₂, t₂, ?_, BF_append hrepBF hw₂, ht₂,
            fun _ hq => hne (List.append_eq_nil.mp hq).1⟩
          have hstep : subScanFuel try1 (n + 1) ([] ++ '>' :: t)
              = rep ++ subScanFuel try1 n (w₃ ++ '>' :: t) := by
            rw [List.nil_append] at htry ⊢
            simp only [subScanFuel, htry]
          rw [hstep, heq, ← List.append_assoc]
        | none =>
          have hstep : subScanFuel try1 (n + 1) ([] ++ '>' :: t)
              = '>' :: subScanFuel try1 n t := by
            rw [List.nil_append] at htry ⊢
            simp only [subScanFuel, htry]
          exact ⟨[], subScanFuel try1 n t, by rw [hstep]; rfl, BF_nil, ihA _ ht,
            fun h => absurd rfl h⟩
      | cons cw w' =>
        cases htry : try1 ((cw :: w') ++ '>' :: t) with
        | some p =>
          obtain ⟨rep, rst⟩ := p
          obtain ⟨hne, hrepBF, w₃, hw₃, hrst⟩ := (hs _ _ _ htry).2 (cw :: w') t rfl hw
          subst hrst
          obtain ⟨w₂, t₂, heq, hw₂, ht₂, _⟩ := ihB w₃ t hw₃ ht
          refine ⟨rep ++ w₂, t₂, ?_, BF_append hrepBF hw₂, ht₂,
            fun _ hq => hne (List.append_eq_nil.mp hq).1⟩
          have htry' := htry
          rw [List.cons_append cw w' ('>' :: t)] at htry'
          have hstep : subScanFuel try1 (n + 1) ((cw :: w') ++ '>' :: t)
              = rep ++ subScanFuel try1 n (w₃ ++ '>' :: t) := by
            rw [List.cons_append cw w' ('>' :: t)]
            simp only [subScanFuel, htry']
          rw [hstep, heq, ← List.append_assoc]
        | none =>
          have htry' := htry
          rw [List.cons_append cw w' ('>' :: t)] at htry'
          have hstep : subScanFuel try1 (n + 1) ((cw :: w') ++ '>' :: t)
              = cw :: subScanFuel try1 n (w' ++ '>' :: t) := by
            rw [List.cons_append cw w' ('>' :: t)]
            simp only [subScanFuel, htry']
          obtain ⟨w₂, t₂, heq, hw₂, ht₂, _⟩ := ihB w' t (BF_of_cons hw) ht
          exact ⟨cw :: w₂, t₂, by rw [hstep, heq, List.cons_append],
            BF_cons (BF_head hw).1 (BF_head hw).2 hw₂, ht₂,
            fun _ => List.cons_ne_nil _ _⟩

/-- A `SafeRule` pass preserves `GoodTags` over the whole scan. -/
theorem subScan_good (try1 : List Char → Option (List Char × List Char))
    (hs : SafeRule try1) (s : List Char) (hg : GoodTags s) :
    GoodTags (subScan try1 s) :=
  (subScanFuel_good try1 hs s.length).1 s hg

/-! ## `SafeRule` instances for the individual passes -/

theorem BF_subset {d l : List Char} (hsub : ∀ c ∈ d, c ∈ l) (hl : BF l) : BF d :=
  fun c hc => hl c (hsub c hc)

/-- Establish `BF` on a concrete list by evaluation. -/
theorem BF_decide {l : List Char}
    (h : l.all (fun c => !(c = '<' || c = '>')) = true) : BF l := by
  intro c hc
  have hb := List.all_eq_true.mp h c hc
  simp only [Bool.not_eq_true', Bool.or_eq_false_iff, decide_eq_false_iff_not] at hb
  exact hb

theorem dropWhile_append_keep {p : Char → Bool} {c : Char} (hc : p c = false)
    (a t : List Char) : (a ++ c :: t).dropWhile p = a.dropWhile p ++ c :: t := by
  induction a with
  | nil => simp [List.dropWhile_cons, hc]
  | cons x a' ih =>
    rw [List.cons_append, List.dropWhile_cons, List.dropWhile_cons]
    by_cases hx : p x
    · simp only [hx, if_true]
      exact ih
    · simp [hx]

theorem safeRule_tryReplace (pat rep : List Char) (hpbf : BF pat)
    (hrne : rep ≠ []) (hrbf : BF rep) : SafeRule (tryReplace pat rep) := by
  intro r rep' rest h
  unfold tryReplace at h
  split at h
  · next hp =>
    have hinj := Option.some.inj h
    have h1 : rep = rep' := congrArg Prod.fst hinj
    have h2 : r.drop pat.length = rest := congrArg Prod.snd hinj
    obtain ⟨u, hu⟩ := List.isPrefixOf_iff_prefix.mp hp
    constructor
    · intro hg
      have hg' : GoodTags (pat ++ u) := by rw [hu]; exact hg
      have hdrop : r.drop pat.length = u := by rw [← hu, List.drop_left]
      rw [← h1, ← h2, hdrop]
      exact ⟨GoodTags_of_BF hrbf, GoodTags_drop_BF hg' hpbf⟩
    · intro w t hr hw
      obtain ⟨w', hw'⟩ := prefix_of_append_gt
        (show pat <+: w ++ '>' :: t from ⟨u, by rw [hu, hr]⟩)
        (fun c hc => (hpbf c hc).2)
      have hww : BF (pat ++ w') := hw' ▸ hw
      refine ⟨h1 ▸ hrne, h1 ▸ hrbf, w', BF_append_right hww, ?_⟩
      rw [← h2, hr, hw', List.append_assoc, List.drop_left]
  · exact absurd h (by simp)

theorem mem_takeWhile_eq_nl {u : List Char} {c : Char}
    (h : c ∈ u.takeWhile (fun c => c = '\n')) : c = '\n' := by
  induction u with
  | nil => simp [List.takeWhile] at h
  | cons x t ih =>
    rw [List.takeWhile_cons] at h
    by_cases hx : x = '\n'
    · simp only [hx, decide_True, if_true, List.mem_cons] at h
      rcases h with rfl | h
      · rfl
      · exact ih h
    · simp [hx] at h

theorem safeRule_tryCollapse : SafeRule tryCollapse := by
  intro r rep' rest h
  unfold tryCollapse at h
  split at h
  · next hp =>
    have hinj := Option.some.inj h
    have h1 : (['\n', '\n'] : List Char) = rep' := congrArg Prod.fst hinj
    have h2 : (r.drop 3).dropWhile (fun c => c = '\n') = rest := congrArg Prod.snd hinj
    obtain ⟨u, hu⟩ := List.isPrefixOf_iff_prefix.mp hp
    have hdrop : r.drop 3 = u := by rw [← hu]; rfl
    constructor
    · intro hg
      refine ⟨by rw [← h1]; exact GoodTags_of_BF (BF_decide (by decide)), ?_⟩
      have hsplit : u = u.takeWhile (fun c => c = '\n') ++ rest := by
        rw [← h2, hdrop]
        exact (List.takeWhile_append_dropWhile _ _).symm
      have hr : r = (['\n', '\n', '\n'] ++ u.takeWhile (fun c => c = '\n')) ++ rest := by
        rw [← hu, List.append_assoc, ← hsplit]
      have hg' : GoodTags ((['\n', '\n', '\n'] ++ u.takeWhile (fun c => c = '\n')) ++ rest) := by
        rw [← hr]; exact hg
      refine GoodTags_drop_BF hg' ?_
      intro c hc
      rcases List.mem_append.mp hc with hc1 | hc2
      · simp only [List.mem_cons, List.not_mem_nil, or_false] at hc1
        rcases hc1 with rfl | rfl | rfl <;> exact ⟨by decide, by decide⟩
      · rw [mem_takeWhile_eq_nl hc2]; exact ⟨by decide, by decide⟩
    · intro w t hr hw
      obtain ⟨w₃, hw₃⟩ := prefix_of_append_gt
        (show ['\n', '\n', '\n'] <+: w ++ '>' :: t from ⟨u, by rw [hu, hr]⟩)
        (by decide)
      have huval : u = w₃ ++ '>' :: t := by
        have hru : ['\n', '\n', '\n'] ++ u = ['\n', '\n', '\n'] ++ (w₃ ++ '>' :: t) := by
          rw [hu, hr, hw₃, List.append_assoc]
        exact List.append_cancel_left hru
      refine ⟨h1 ▸ (by decide : (['\n', '\n'] : List Char) ≠ []),
        h1 ▸ BF_decide (by decide),
        w₃.dropWhile (fun c => c = '\n'), ?_, ?_⟩
      · refine BF_subset (fun c hc => ?_) (hw₃ ▸ hw)
        exact List.mem_append.mpr (Or.inr ((List.dropWhile_sublist _).mem hc))
      · rw [← h2, hdrop, huval, dropWhile_append_keep (by decide)]
  · exact absurd h (by simp)

theorem safeRule_tryTag : SafeRule tryTag := by
  intro r rep' rest h
  have hhead := tryTag_head h
  unfold tryTag at h
  rw [if_pos hhead] at h
  constructor
  · intro hg
    obtain ⟨inner, s', heq, hne, hbf, hgt⟩ := GoodTags_lt_head hg hhead
    have hdropone : r.drop 1 = inner ++ '>' :: s' := by
      rw [heq, List.cons_append, List.drop_succ_cons, List.drop_zero]
    rw [hdropone, splitAtFirstGt_of (fun hm => (hbf '>' hm).2 rfl)] at h
    have hred : (if inner.isEmpty = true then none
        else some (([] : List Char), s')) = some (rep', rest) := h
    rw [if_neg (by simp [List.isEmpty_iff, hne])] at hred
    have hinj := Option.some.inj hred
    have h1 : ([] : List Char) = rep' := congrArg Prod.fst hinj
    have h2 : s' = rest := congrArg Prod.snd hinj
    rw [← h1, ← h2]
    exact ⟨GoodTags.nil, hgt⟩
  · intro w t hr hw
    exfalso
    cases w with
    | nil =>
      rw [hr, List.nil_append, List.head?_cons] at hhead
      exact absurd (Option.some.inj hhead) (by decide)
    | cons a w' =>
      rw [hr, List.cons_append, List.head?_cons] at hhead
      exact absurd (Option.some.inj hhead) (BF_head hw).1

theorem safeRule_tryExact (mid cmid wl wr close : List Char)
    (hclose : close = '<' :: cmid ++ ['>'])
    (hmbf : BF mid) (hcmbf : BF cmid) (hwl : BF wl) (hwr : BF wr) :
    SafeRule (tryExact mid close wl wr) := by
  intro r rep' rest h
  unfold tryExact at h
  split at h
  · next hp =>
    cases hlz : lazyUntil close (r.drop (mid.length + 2)) with
    | none => rw [hlz] at h; exact absurd h (by simp)
    | some p =>
      obtain ⟨g, rst⟩ := p
      rw [hlz] at h
      have hinj := Option.some.inj h
      have h1 : wl ++ g ++ wr = rep' := congrArg Prod.fst hinj
      have h2 : rst = rest := congrArg Prod.snd hinj
      obtain ⟨u, hu⟩ := List.isPrefixOf_iff_prefix.mp hp
      constructor
      · intro hg
        have hchead : r.head? = some '<' := by rw [← hu]; rfl
        obtain ⟨inner, s', heq, hne, hbf, hgt⟩ := GoodTags_lt_head hg hchead
        have h3 : ('<' :: mid ++ ['>']) ++ u = '<' :: inner ++ '>' :: s' := hu.trans heq
        simp only [List.cons_append, List.append_assoc, List.singleton_append] at h3
        injection h3 with _ h4
        have hmi : mid = inner := prefix_tag_unique (fun c hc => (hmbf c hc).2)
          (fun c hc => (hbf c hc).2)
          ⟨u, by simp only [List.append_assoc, List.singleton_append]; exact h4⟩
        subst hmi
        have hdrop : r.drop (mid.length + 2) = s' := by rw [heq, drop_tag]
        rw [hdrop, hclose] at hlz
        obtain ⟨hgg, hgr⟩ := (lazyUntil_good cmid hcmbf s'.length s' le_rfl).1 g rst hgt hlz
        rw [← h1, ← h2]
        exact ⟨GoodTags_append (GoodTags_append (GoodTags_of_BF hwl) hgg)
          (GoodTags_of_BF hwr), hgr⟩
      · intro w t hr hw
        exfalso
        subst hr
        cases w with
        | nil =>
          injection hu with h5 _
          exact absurd h5 (by decide)
        | cons a w' =>
          injection hu with h5 _
          exact absurd h5.symm (BF_head hw).1
  · exact absurd h (by simp)

theorem safeRule_tryAttrs (lead : List Char) (b : Bool) (cmid wl wr close : List Char)
    (hclose : close = '<' :: cmid ++ ['>'])
    (hlbf : BF lead) (hcmbf : BF cmid) (hwl : BF wl) (hwr : BF wr) :
    SafeRule (tryAttrs lead b close wl wr) := by
  intro r rep' rest h
  simp only [tryAttrs] at h
  split at h
  · next hp =>
    split at h
    · exact absurd h (by simp)
    · cases hsp : splitAtFirstGt (r.drop (lead.length + 1)) with
      | none => rw [hsp] at h; exact absurd h (by simp)
      | some p0 =>
        obtain ⟨att, afterOpen⟩ := p0
        rw [hsp] at h
        have hred : (match lazyUntil close afterOpen with
            | none => none
            | some (g, r) => some (wl ++ g ++ wr, r)) = some (rep', rest) := h
        cases hlz : lazyUntil close afterOpen with
        | none => rw [hlz] at hred; exact absurd hred (by simp)
        | some p =>
          obtain ⟨g, rst⟩ := p
          rw [hlz] at hred
          have hinj := Option.some.inj hred
          have h1 : wl ++ g ++ wr = rep' := congrArg Prod.fst hinj
          have h2 : rst = rest := congrArg Prod.snd hinj
          obtain ⟨u, hu⟩ := List.isPrefixOf_iff_prefix.mp hp
          constructor
          · intro hg
            have hchead : r.head? = some '<' := by rw [← hu]; rfl
            obtain ⟨inner, s', heq, hne, hbf, hgt⟩ := GoodTags_lt_head hg hchead
            have h3 : ('<' :: lead) ++ u = '<' :: inner ++ '>' :: s' := hu.trans heq
            rw [List.cons_append] at h3
            injection h3 with _ h4
            obtain ⟨e, he⟩ := prefix_of_append_gt ⟨u, h4⟩ (fun c hc => (hlbf c hc).2)
            have hbfe : BF e := BF_append_right (he ▸ hbf)
            have hr' : r = ('<' :: lead) ++ (e ++ '>' :: s') := by
              rw [heq, he]
              simp [List.append_assoc]
            have hr0 : r.drop (lead.length + 1) = e ++ '>' :: s' := by
              rw [hr', ← show ('<' :: lead).length = lead.length + 1 from by simp]
              exact List.drop_left _ _
            rw [hr0, splitAtFirstGt_of (fun hm => (hbfe '>' hm).2 rfl)] at hsp
            have hao : afterOpen = s' :=
              (congrArg Prod.snd (Option.some.inj hsp)).symm
            rw [hao, hclose] at hlz
            obtain ⟨hgg, hgr⟩ :=
              (lazyUntil_good cmid hcmbf s'.length s' le_rfl).1 g rst hgt hlz
            rw [← h1, ← h2]
            exact ⟨GoodTags_append (GoodTags_append (GoodTags_of_BF hwl) hgg)
              (GoodTags_of_BF hwr), hgr⟩
          · intro w t hr hw
            exfalso
            subst hr
            cases w with
            | nil =>
              injection hu with h5 _
              exact absurd h5 (by decide)
            | cons a w' =>
              injection hu with h5 _
              exact absurd h5.symm (BF_head hw).1
  · exact absurd h (by simp)

theorem safeRule_tryBr : SafeRule tryBr := by
  intro r rep' rest h
  unfold tryBr at h
  split at h
  · next hp =>
    obtain ⟨u, hu⟩ := List.isPrefixOf_iff_prefix.mp hp
    have hB : (∀ w t, r = w ++ '>' :: t → BF w →
        rep' ≠ [] ∧ BF rep' ∧ ∃ w₂, BF w₂ ∧ rest = w₂ ++ '>' :: t) := by
      intro w t hr hw
      exfalso
      subst hr
      cases w with
      | nil =>
        injection hu with h5 _
        exact absurd h5 (by decide)
      | cons a w' =>
        injection hu with h5 _
        exact absurd h5.symm (BF_head hw).1
    refine ⟨?_, hB⟩
    intro hg
    have hchead : r.head? = some '<' := by rw [← hu]; rfl
    obtain ⟨inner, s', heq, hne, hbf, hgt⟩ := GoodTags_lt_head hg hchead
    have h3 : "<br".toList ++ u = '<' :: inner ++ '>' :: s' := hu.trans heq
    have h4 : 'b' :: 'r' :: u = inner ++ '>' :: s' := by
      injection h3 with _ h4
    -- peel the first two characters of `inner`
    cases inner with
    | nil =>
      rw [List.nil_append] at h4
      injection h4 with h5 _
      exact absurd h5.symm (by decide)
    | cons i1 it =>
      rw [List.cons_append] at h4
      injection h4 with h5 h6
      cases it with
      | nil =>
        rw [List.nil_append] at h6
        injection h6 with h7 _
        exact absurd h7.symm (by decide)
      | cons i2 it2 =>
        rw [List.cons_append] at h6
        injection h6 with h7 h8
        -- u = it2 ++ '>' :: s'
        have hbf2 : BF it2 := BF_of_cons (BF_of_cons hbf)
        have hdrop3 : r.drop 3 = u := by rw [← hu]; rfl
        have hr1 : (r.drop 3).dropWhile pyIsSpace
            = it2.dropWhile pyIsSpace ++ '>' :: s' := by
          rw [hdrop3, h8, dropWhile_append_keep (by decide)]
        have hbfd : BF (it2.dropWhile pyIsSpace) :=
          BF_subset (fun c hc => (List.dropWhile_sublist _).mem hc) hbf2
        split at h
        · next hp2 =>
          obtain ⟨v, hv⟩ := List.isPrefixOf_iff_prefix.mp hp2
          rw [hr1] at hv
          cases hd : it2.dropWhile pyIsSpace with
          | nil =>
            rw [hd, List.nil_append] at hv
            injection hv with h9 _
            exact absurd h9 (by decide)
          | cons x d' =>
            rw [hd, List.cons_append] at hv
            injection hv with h9 h10
            cases d' with
            | nil =>
              rw [List.nil_append] at h10
              injection h10 with _ h11
              have hinj := Option.some.inj h
              have h1 : (['\n'] : List Char) = rep' := congrArg Prod.fst hinj
              have h2 : ((r.drop 3).dropWhile pyIsSpace).drop 2 = rest :=
                congrArg Prod.snd hinj
              have hrest : rest = s' := by
                rw [← h2, hr1, hd, ← h9]
                rfl
              rw [← h1, hrest]
              exact ⟨GoodTags_of_BF (BF_decide (by decide)), hgt⟩
            | cons y d'' =>
              rw [List.cons_append] at h10
              injection h10 with h11 _
              have : y ∈ it2.dropWhile pyIsSpace := by rw [hd]; simp
              exact absurd h11.symm (hbfd y this).2
        · split at h
          · next hp3 =>
            obtain ⟨v, hv⟩ := List.isPrefixOf_iff_prefix.mp hp3
            rw [hr1] at hv
            cases hd : it2.dropWhile pyIsSpace with
            | nil =>
              rw [hd, List.nil_append] at hv
              injection hv with h9 h10
              have hinj := Option.some.inj h
              have h1 : (['\n'] : List Char) = rep' := congrArg Prod.fst hinj
              have h2 : ((r.drop 3).dropWhile pyIsSpace).drop 1 = rest :=
                congrArg Prod.snd hinj
              have hrest : rest = s' := by
                rw [← h2, hr1, hd]
                rfl
              rw [← h1, hrest]
              exact ⟨GoodTags_of_BF (BF_decide (by decide)), hgt⟩
            | cons x d' =>
              rw [hd, List.cons_append] at hv
              injection hv with h9 _
              have : x ∈ it2.dropWhile pyIsSpace := by rw [hd]; simp
              exact absurd h9.symm (hbfd x this).2
          · exact absurd h (by simp)
  · exact absurd h (by simp)

/-! ## Character preservation through the scanner -/

/-- A pass whose rule only emits characters satisfying `P` (given the
consumed text satisfied `P`) keeps `P` over the whole string. -/
theorem subScanFuel_pres (P : Char → Prop)
    (try1 : List Char → Option (List Char × List Char))
    (h : ∀ r rep rest, try1 r = some (rep, rest) → (∀ c ∈ r, P c) →
      (∀ c ∈ rep, P c) ∧ (∀ c ∈ rest, P c)) :
    ∀ fuel s, (∀ c ∈ s, P c) → ∀ c ∈ subScanFuel try1 fuel s, P c := by
  intro fuel
  induction fuel with
  | zero => exact fun s hs => hs
  | succ n ih =>
    intro s hs
    cases s with
    | nil => intro c hc; exact absurd hc (List.not_mem_nil c)
    | cons a rest =>
      cases htry : try1 (a :: rest) with
      | some p =>
        obtain ⟨rep, rst⟩ := p
        have hstep : subScanFuel try1 (n + 1) (a :: rest)
            = rep ++ subScanFuel try1 n rst := by
          simp only [subScanFuel, htry]
        rw [hstep]
        obtain ⟨h1, h2⟩ := h _ _ _ htry hs
        intro c hc
        rcases List.mem_append.mp hc with hm | hm
        · exact h1 c hm
        · exact ih rst h2 c hm
      | none =>
        have hstep : subScanFuel try1 (n + 1) (a :: rest)
            = a :: subScanFuel try1 n rest := by
          simp only [subScanFuel, htry]
        rw [hstep]
        intro c hc
        rcases List.mem_cons.mp hc with rfl | hm
        · exact hs c (List.mem_cons_self c rest)
        · exact ih rest (fun x hx => hs x (List.mem_cons_of_mem a hx)) c hm

theorem lazyUntil_subset (close : List Char) :
    ∀ s g r, lazyUntil close s = some (g, r) →
      (∀ c ∈ g, c ∈ s) ∧ (∀ c ∈ r, c ∈ s) := by
  intro s
  induction s with
  | nil =>
    intro g r h
    rw [lazyUntil] at h
    split at h
    · have hinj := Option.some.inj h
      have h1 : ([] : List Char) = g := congrArg Prod.fst hinj
      have h2 : ([] : List Char) = r := congrArg Prod.snd hinj
      rw [← h1, ← h2]
      exact ⟨fun c hc => absurd hc (List.not_mem_nil c),
        fun c hc => absurd hc (List.not_mem_nil c)⟩
    · exact absurd h (by simp)
  | cons a rest ih =>
    intro g r h
    rw [lazyUntil] at h
    split at h
    · have hinj := Option.some.inj h
      have h1 : ([] : List Char) = g := congrArg Prod.fst hinj
      have h2 : (a :: rest).drop close.length = r := congrArg Prod.snd hinj
      rw [← h1, ← h2]
      exact ⟨fun c hc => absurd hc (List.not_mem_nil c),
        fun c hc => List.drop_subset _ _ hc⟩
    · split at h
      · exact absurd h (by simp)
      · cases hrec : lazyUntil close rest with
        | none => rw [hrec] at h; exact absurd h (by simp)
        | some p =>
          obtain ⟨g', r'⟩ := p
          rw [hrec] at h
          have hinj := Option.some.inj h
          have h1 : a :: g' = g := congrArg Prod.fst hinj
          have h2 : r' = r := congrArg Prod.snd hinj
          obtain ⟨hg', hr'⟩ := ih g' r' hrec
          rw [← h1, ← h2]
          constructor
          · intro c hc
            rcases List.mem_cons.mp hc with rfl | hm
            · exact List.mem_cons_self c rest
            · exact List.mem_cons_of_mem a (hg' c hm)
          · exact fun c hc => List.mem_cons_of_mem a (hr' c hc)

theorem pres_tryReplace (P : Char → Prop) (pat rep : List Char)
    (hrep : ∀ c ∈ rep, P c) :
    ∀ r rep' rest, tryReplace pat rep r = some (rep', rest) →
      (∀ c ∈ r, P c) → (∀ c ∈ rep', P c) ∧ (∀ c ∈ rest, P c) := by
  intro r rep' rest h hr
  unfold tryReplace at h
  split at h
  · have hinj := Option.some.inj h
    have h1 : rep = rep' := congrArg Prod.fst hinj
    have h2 : r.drop pat.length = rest := congrArg Prod.snd hinj
    rw [← h1, ← h2]
    exact ⟨hrep, fun c hc => hr c (List.drop_subset _ _ hc)⟩
  · exact absurd h (by simp)

theorem pres_tryExact (P : Char → Prop) (mid close wl wr : List Char)
    (hwl : ∀ c ∈ wl, P c) (hwr : ∀ c ∈ wr, P c) :
    ∀ r rep' rest, tryExact mid close wl wr r = some (rep', rest) →
      (∀ c ∈ r, P c) → (∀ c ∈ rep', P c) ∧ (∀ c ∈ rest, P c) := by
  intro r rep' rest h hr
  unfold tryExact at h
  split at h
  · cases hlz : lazyUntil close (r.drop (mid.length + 2)) with
    | none => rw [hlz] at h; exact absurd h (by simp)
    | some p =>
      obtain ⟨g, rst⟩ := p
      rw [hlz] at h
      have hinj := Option.some.inj h
      have h1 : wl ++ g ++ wr = rep' := congrArg Prod.fst hinj
      have h2 : rst = rest := congrArg Prod.snd hinj
      obtain ⟨hgsub, hrsub⟩ := lazyUntil_subset close _ g rst hlz
      have hdropP : ∀ c ∈ r.drop (mid.length + 2), P c :=
        fun c hc => hr c (List.drop_subset _ _ hc)
      rw [← h1, ← h2]
      constructor
      · intro c hc
        rcases List.mem_append.mp hc with hm | hm
        · rcases List.mem_append.mp hm with hm2 | hm2
          · exact hwl c hm2
          · exact hdropP c (hgsub c hm2)
        · exact hwr c hm
      · exact fun c hc => hdropP c (hrsub c hc)
  · exact absurd h (by simp)

theorem pres_tryAttrs (P : Char → Prop) (lead : List Char) (b : Bool)
    (close wl wr : List Char)
    (hwl : ∀ c ∈ wl, P c) (hwr : ∀ c ∈ wr, P c) :
    ∀ r rep' rest, tryAttrs lead b close wl wr r = some (rep', rest) →
      (∀ c ∈ r, P c) → (∀ c ∈ rep', P c) ∧ (∀ c ∈ rest, P c) := by
  intro r rep' rest h hr
  simp only [tryAttrs] at h
  split at h
  · split at h
    · exact absurd h (by simp)
    · cases hsp : splitAtFirstGt (r.drop (lead.length + 1)) with
      | none => rw [hsp] at h; exact absurd h (by simp)
      | some p0 =>
        obtain ⟨att, afterOpen⟩ := p0
        rw [hsp] at h
        have hred : (match lazyUntil close afterOpen with
            | none => none
            | some (g, r) => some (wl ++ g ++ wr, r)) = some (rep', rest) := h
        cases hlz : lazyUntil close afterOpen with
        | none => rw [hlz] at hred; exact absurd hred (by simp)
        | some p =>
          obtain ⟨g, rst⟩ := p
          rw [hlz] at hred
          have hinj := Option.some.inj hred
          have h1 : wl ++ g ++ wr = rep' := congrArg Prod.fst hinj
          have h2 : rst = rest := congrArg Prod.snd hinj
          have hdropP : ∀ c ∈ r.drop (lead.length + 1), P c :=
            fun c hc => hr c (List.drop_subset _ _ hc)
          have haoP : ∀ c ∈ afterOpen, P c := by
            obtain ⟨heq, _⟩ := splitAtFirstGt_eq hsp
            intro c hc
            exact hdropP c (heq ▸ List.mem_append.mpr
              (Or.inr (List.mem_cons_of_mem '>' hc)))
          obtain ⟨hgsub, hrsub⟩ := lazyUntil_subset close _ g rst hlz
          rw [← h1, ← h2]
          constructor
          · intro c hc
            rcases List.mem_append.mp hc with hm | hm
            · rcases List.mem_append.mp hm with hm2 | hm2
              · exact hwl c hm2
              · exact haoP c (hgsub c hm2)
            · exact hwr c hm
          · exact fun c hc => haoP c (hrsub c hc)
  · exact absurd h (by simp)

theorem pres_tryBr (P : Char → Prop) (hnl : P '\n') :
    ∀ r rep' rest, tryBr r = some (rep', rest) →
      (∀ c ∈ r, P c) → (∀ c ∈ rep', P c) ∧ (∀ c ∈ rest, P c) := by
  intro r rep' rest h hr
  have hsub : ∀ n, ∀ c ∈ ((r.drop 3).dropWhile pyIsSpace).drop n, P c := by
    intro n c hc
    exact hr c (List.drop_subset _ _
      ((List.dropWhile_sublist _).mem (List.drop_subset _ _ hc)))
  unfold tryBr at h
  split at h
  · split at h
    · have hinj := Option.some.inj h
      have h1 : (['\n'] : List Char) = rep' := congrArg Prod.fst hinj
      have h2 : ((r.drop 3).dropWhile pyIsSpace).drop 2 = rest :=
        congrArg Prod.snd hinj
      rw [← h1, ← h2]
      refine ⟨fun c hc => ?_, hsub 2⟩
      rcases List.mem_cons.mp hc with rfl | hm
      · exact hnl
      · exact absurd hm (List.not_mem_nil c)
    · split at h
      · have hinj := Option.some.inj h
        have h1 : (['\n'] : List Char) = rep' := congrArg Prod.fst hinj
        have h2 : ((r.drop 3).dropWhile pyIsSpace).drop 1 = rest :=
          congrArg Prod.snd hinj
        rw [← h1, ← h2]
        refine ⟨fun c hc => ?_, hsub 1⟩
        rcases List.mem_cons.mp hc with rfl | hm
        · exact hnl
        · exact absurd hm (List.not_mem_nil c)
      · exact absurd h (by simp)
  · exact absurd h (by simp)

theorem pres_tryCollapse (P : Char → Prop) (hnl : P '\n') :
    ∀ r rep' rest, tryCollapse r = some (rep', rest) →
      (∀ c ∈ r, P c) → (∀ c ∈ rep', P c) ∧ (∀ c ∈ rest, P c) := by
  intro r rep' rest h hr
  unfold tryCollapse at h
  split at h
  · have hinj := Option.some.inj h
    have h1 : (['\n', '\n'] : List Char) = rep' := congrArg Prod.fst hinj
    have h2 : (r.drop 3).dropWhile (fun c => c = '\n') = rest :=
      congrArg Prod.snd hinj
    rw [← h1, ← h2]
    constructor
    · intro c hc
      rcases List.mem_cons.mp hc with rfl | hm
      · exact hnl
      · rcases List.mem_cons.mp hm with rfl | hm2
        · exact hnl
        · exact absurd hm2 (List.not_mem_nil c)
    · intro c hc
      exact hr c (List.drop_subset _ _ ((List.dropWhile_sublist _).mem hc))
  · exact absurd h (by simp)

theorem pres_tryTag (P : Char → Prop) :
    ∀ r rep' rest, tryTag r = some (rep', rest) →
      (∀ c ∈ r, P c) → (∀ c ∈ rep', P c) ∧ (∀ c ∈ rest, P c) := by
  intro r rep' rest h hr
  unfold tryTag at h
  split at h
  · cases hsp : splitAtFirstGt (r.drop 1) with
    | none => rw [hsp] at h; exact absurd h (by simp)
    | some p =>
      obtain ⟨inner, rst⟩ := p
      rw [hsp] at h
      have hred : (if inner.isEmpty = true then none
          else some (([] : List Char), rst)) = some (rep', rest) := h
      split at hred
      · exact absurd hred (by simp)
      · have hinj := Option.some.inj hred
        have h1 : ([] : List Char) = rep' := congrArg Prod.fst hinj
        have h2 : rst = rest := congrArg Prod.snd hinj
        rw [← h1, ← h2]
        obtain ⟨heq, _⟩ := splitAtFirstGt_eq hsp
        refine ⟨fun c hc => absurd hc (List.not_mem_nil c), fun c hc => ?_⟩
        exact hr c (List.drop_subset _ _ (heq ▸ List.mem_append.mpr
          (Or.inr (List.mem_cons_of_mem '>' hc))))
  · exact absurd h (by simp)

/-- A replace pass whose pattern starts with `'&'` is the identity on an
ampersand-free string. -/
theorem subScan_amp_id (pat rep s : List Char) (hp : pat.head? = some '&')
    (hs : '&' ∉ s) : subScan (tryReplace pat rep) s = s :=
  subScan_id _ s fun t ht => by
    cases htry : tryReplace pat rep t with
    | none => rfl
    | some x =>
      exfalso
      obtain ⟨v, hv⟩ := tryReplace_matches htry
      cases pat with
      | nil => exact absurd hp (by simp)
      | cons p0 pt =>
        have hp0 : p0 = '&' := by
          rw [List.head?_cons] at hp
          exact Option.some.inj hp
        have hmem : '&' ∈ t := by
          rw [← hv, hp0]
          exact List.mem_append.mpr (Or.inl (List.mem_cons_self '&' pt))
        exact hs (ht.mem hmem)

/-- The final `strip()` only removes characters. -/
theorem mem_pyStrip {c : Char} {l : List Char} (h : c ∈ pyStrip l) : c ∈ l := by
  unfold pyStrip at h
  rw [List.mem_reverse] at h
  have h2 := (List.dropWhile_sublist pyIsSpace).mem h
  rw [List.mem_reverse] at h2
  exact (List.dropWhile_sublist pyIsSpace).mem h2

/-- The tag-stripping pass turns a `GoodTags` string into a bracket-free
one (with fuel at least the string's length, as `subScan` supplies). -/
theorem tagStrip_BF : ∀ fuel s, s.length ≤ fuel → GoodTags s →
    BF (subScanFuel tryTag fuel s) := by
  intro fuel
  induction fuel with
  | zero =>
    intro s hlen _
    have hs : s = [] := List.eq_nil_of_length_eq_zero (Nat.le_zero.mp hlen)
    subst hs
    exact BF_nil
  | succ n ih =>
    intro s hlen hg
    cases s with
    | nil => exact BF_nil
    | cons c rest =>
      rw [List.length_cons, Nat.succ_le_succ_iff] at hlen
      rcases GoodTags_cons_cases hg with ⟨h1, h2, h3⟩ |
        ⟨inner, s', rfl, rfl, hne, hbf, hgt⟩
      · have htry : tryTag (c :: rest) = none := by
          unfold tryTag
          rw [if_neg (by simp [h1])]
        have hstep : subScanFuel tryTag (n + 1) (c :: rest)
            = c :: subScanFuel tryTag n rest := by
          simp only [subScanFuel, htry]
        rw [hstep]
        exact BF_cons h1 h2 (ih rest hlen h3)
      · have htry : tryTag ('<' :: (inner ++ '>' :: s')) = some ([], s') := by
          unfold tryTag
          rw [if_pos (show ('<' :: (inner ++ '>' :: s')).head? = some '<' from rfl),
            show ('<' :: (inner ++ '>' :: s')).drop 1 = inner ++ '>' :: s' from by simp,
            splitAtFirstGt_of (fun hm => (hbf '>' hm).2 rfl)]
          show (if inner.isEmpty = true then none
            else some (([] : List Char), s')) = some ([], s')
          rw [if_neg (by simp [List.isEmpty_iff, hne])]
        show BF (subScanFuel tryTag (n + 1) ('<' :: (inner ++ '>' :: s')))
        have hstep : subScanFuel tryTag (n + 1) ('<' :: (inner ++ '>' :: s'))
            = [] ++ subScanFuel tryTag n s' := by
          simp only [subScanFuel]
          rw [htry]
        rw [hstep, List.nil_append]
        refine ih s' ?_ hgt
        rw [List.length_append, List.length_cons] at hlen
        omega

/-! ## Per-stage composition lemmas -/

theorem stage_attrs (lead : List Char) (b : Bool) (cmid wl wr close : List Char)
    (hclose : close = '<' :: cmid ++ ['>'])
    (hl : BF lead) (hcm : BF cmid) (hwl : BF wl) (hwr : BF wr)
    (hwlA : ∀ c ∈ wl, c ≠ '&') (hwrA : ∀ c ∈ wr, c ≠ '&')
    (s : List Char) (hg : GoodTags s) (ha : ∀ c ∈ s, c ≠ '&') :
    GoodTags (subScan (tryAttrs lead b close wl wr) s) ∧
    (∀ c ∈ subScan (tryAttrs lead b close wl wr) s, c ≠ '&') :=
  ⟨subScan_good _ (safeRule_tryAttrs lead b cmid wl wr close hclose hl hcm hwl hwr) s hg,
   subScanFuel_pres (fun c => c ≠ '&') _
     (pres_tryAttrs _ lead b close wl wr hwlA hwrA) s.length s ha⟩

theorem stage_exact (mid cmid wl wr close : List Char)
    (hclose : close = '<' :: cmid ++ ['>'])
    (hm : BF mid) (hcm : BF cmid) (hwl : BF wl) (hwr : BF wr)
    (hwlA : ∀ c ∈ wl, c ≠ '&') (hwrA : ∀ c ∈ wr, c ≠ '&')
    (s : List Char) (hg : GoodTags s) (ha : ∀ c ∈ s, c ≠ '&') :
    GoodTags (subScan (tryExact mid close wl wr) s) ∧
    (∀ c ∈ subScan (tryExact mid close wl wr) s, c ≠ '&') :=
  ⟨subScan_good _ (safeRule_tryExact mid cmid wl wr close hclose hm hcm hwl hwr) s hg,
   subScanFuel_pres (fun c => c ≠ '&') _
     (pres_tryExact _ mid close wl wr hwlA hwrA) s.length s ha⟩

theorem stage_br (s : List Char) (hg : GoodTags s) (ha : ∀ c ∈ s, c ≠ '&') :
    GoodTags (subScan tryBr s) ∧ (∀ c ∈ subScan tryBr s, c ≠ '&') :=
  ⟨subScan_good _ safeRule_tryBr s hg,
   subScanFuel_pres (fun c => c ≠ '&') _ (pres_tryBr _ (by decide)) s.length s ha⟩

theorem stage_amp_id (pat rep : List Char) (hp : pat.head? = some '&')
    (s : List Char) (hg : GoodTags s) (ha : ∀ c ∈ s, c ≠ '&') :
    GoodTags (subScan (tryReplace pat rep) s) ∧
    (∀ c ∈ subScan (tryReplace pat rep) s, c ≠ '&') := by
  rw [subScan_amp_id pat rep s hp (fun hm => ha '&' hm rfl)]
  exact ⟨hg, ha⟩

theorem stage_replace (pat rep : List Char) (hpbf : BF pat)
    (hrne : rep ≠ []) (hrbf : BF rep) (hrepA : ∀ c ∈ rep, c ≠ '&')
    (s : List Char) (hg : GoodTags s) (ha : ∀ c ∈ s, c ≠ '&') :
    GoodTags (subScan (tryReplace pat rep) s) ∧
    (∀ c ∈ subScan (tryReplace pat rep) s, c ≠ '&') :=
  ⟨subScan_good _ (safeRule_tryReplace pat rep hpbf hrne hrbf) s hg,
   subScanFuel_pres (fun c => c ≠ '&') _
     (pres_tryReplace _ pat rep hrepA) s.length s ha⟩

theorem subScan_tagStrip_BF (s : List Char) (hg : GoodTags s) :
    BF (subScan tryTag s) :=
  tagStrip_BF s.length s le_rfl hg

theorem stage_collapse_BF (s : List Char) (hbf : BF s) :
    BF (subScan tryCollapse s) :=
  subScanFuel_pres (fun c => c ≠ '<' ∧ c ≠ '>') _
    (pres_tryCollapse _ (by decide)) s.length s hbf

/-- The full conversion maps well-formed ampersand-free markup to a
bracket-free string. -/
theorem html_to_markdown_BF (s : List Char) (hg : GoodTags s)
    (ha : ∀ c ∈ s, c ≠ '&') : BF (html_to_markdown s) := by
  have h1 := stage_attrs "h1".toList false "/h1".toList "# ".toList ['\n']
    "</h1>".toList (by decide) (BF_decide (by decide)) (BF_decide (by decide))
    (BF_decide (by decide)) (BF_decide (by decide)) (by decide) (by decide) s hg ha
  have h2 := stage_attrs "h2".toList false "/h2".toList "## ".toList ['\n']
    "</h2>".toList (by decide) (BF_decide (by decide)) (BF_decide (by decide))
    (BF_decide (by decide)) (BF_decide (by decide)) (by decide) (by decide) _ h1.1 h1.2
  have h3 := stage_attrs "h3".toList false "/h3".toList "### ".toList ['\n']
    "</h3>".toList (by decide) (BF_decide (by decide)) (BF_decide (by decide))
    (BF_decide (by decide)) (BF_decide (by decide)) (by decide) (by decide) _ h2.1 h2.2
  have h4 := stage_attrs "h4".toList false "/h4".toList "#### ".toList ['\n']
    "</h4>".toList (by decide) (BF_decide (by decide)) (BF_decide (by decide))
    (BF_decide (by decide)) (BF_decide (by decide)) (by decide) (by decide) _ h3.1 h3.2
  have h5 := stage_exact "p".toList "/p".toList [] "\n\n".toList "</p>".toList
    (by decide) (BF_decide (by decide)) (BF_decide (by decide)) BF_nil
    (BF_decide (by decide)) (by decide) (by decide) _ h4.1 h4.2
  have h6 := stage_attrs "p".toList true "/p".toList [] "\n\n".toList "</p>".toList
    (by decide) (BF_decide (by decide)) (BF_decide (by decide)) BF_nil
    (BF_decide (by decide)) (by decide) (by decide) _ h5.1 h5.2
  have h7 := stage_exact "em".toList "/em".toList ['*'] ['*'] "</em>".toList
    (by decide) (BF_decide (by decide)) (BF_decide (by decide))
    (BF_decide (by decide)) (BF_decide (by decide)) (by decide) (by decide) _ h6.1 h6.2
  have h8 := stage_exact "strong".toList "/strong".toList "**".toList "**".toList
    "</strong>".toList (by decide) (BF_decide (by decide)) (BF_decide (by decide))
    (BF_decide (by decide)) (BF_decide (by decide)) (by decide) (by decide) _ h7.1 h7.2
  have h9 := stage_br _ h8.1 h8.2
  have h10 := stage_amp_id "&nbsp;".toList [' '] (by decide) _ h9.1 h9.2
  have h11 := stage_replace ['\xa0'] [' '] (BF_decide (by decide)) (by decide)
    (BF_decide (by decide)) (by decide) _ h10.1 h10.2
  have h12 := stage_amp_id "&amp;".toList ['&'] (by decide) _ h11.1 h11.2
  have h13 := stage_amp_id "&lt;".toList ['<'] (by decide) _ h12.1 h12.2
  have h14 := stage_amp_id "&gt;".toList ['>'] (by decide) _ h13.1 h13.2
  have h15 : GoodTags (subScan (tryReplace ['…'] "...".toList) _) :=
    subScan_good _ (safeRule_tryReplace ['…'] "...".toList (BF_decide (by decide))
      (by decide) (BF_decide (by decide))) _ h14.1
  have h16 := subScan_tagStrip_BF _ h15
  have h17 := stage_collapse_BF _ h16
  exact fun c hc => h17 c (mem_pyStrip hc)

/-! ## The rendered grammar is well-formed markup -/

theorem cleanChar_props {c : Char} (h : cleanChar c = true) :
    c ≠ '<' ∧ c ≠ '>' ∧ c ≠ '&' := by
  simp only [cleanChar, Bool.not_eq_true', Bool.or_eq_false_iff,
    decide_eq_false_iff_not] at h
  exact ⟨h.1.1, h.1.2, h.2⟩

theorem clean_BF {s : List Char} (h : s.all cleanChar = true) :
    BF s ∧ (∀ c ∈ s, c ≠ '&') := by
  have hall := List.all_eq_true.mp h
  exact ⟨fun c hc => ⟨(cleanChar_props (hall c hc)).1, (cleanChar_props (hall c hc)).2.1⟩,
    fun c hc => (cleanChar_props (hall c hc)).2.2⟩

theorem amp_notin_const {l : List Char}
    (hl : l.all (fun c => !(c = '&')) = true) {c : Char} (hc : c ∈ l) :
    c ≠ '&' := by
  have hb := List.all_eq_true.mp hl c hc
  simpa using hb

theorem renderInline_good (i : Inline) :
    GoodTags (renderInline i) ∧ (∀ c ∈ renderInline i, c ≠ '&') := by
  cases i with
  | txt s h => exact ⟨GoodTags_of_BF (clean_BF h).1, (clean_BF h).2⟩
  | ent e =>
    cases e with
    | nbspChar => exact ⟨GoodTags_of_BF (BF_decide (by decide)), by decide⟩
    | hellip => exact ⟨GoodTags_of_BF (BF_decide (by decide)), by decide⟩
  | br =>
    refine ⟨?_, by decide⟩
    show GoodTags ('<' :: ('b' :: 'r' :: '/' :: []) ++ '>' :: [])
    exact GoodTags.tag (by decide) (BF_decide (by decide)) GoodTags.nil
  | em s h =>
    constructor
    · refine GoodTags_append (GoodTags_append ?_ (GoodTags_of_BF (clean_BF h).1)) ?_
      · show GoodTags ('<' :: ('e' :: 'm' :: []) ++ '>' :: [])
        exact GoodTags.tag (by decide) (BF_decide (by decide)) GoodTags.nil
      · show GoodTags ('<' :: ('/' :: 'e' :: 'm' :: []) ++ '>' :: [])
        exact GoodTags.tag (by decide) (BF_decide (by decide)) GoodTags.nil
    · intro c hc
      rcases List.mem_append.mp hc with hm | hm
      · rcases List.mem_append.mp hm with hm2 | hm2
        · exact amp_notin_const (by decide) hm2
        · exact (clean_BF h).2 c hm2
      · exact amp_notin_const (by decide) hm
  | strong s h =>
    constructor
    · refine GoodTags_append (GoodTags_append ?_ (GoodTags_of_BF (clean_BF h).1)) ?_
      · show GoodTags ('<' :: ('s' :: 't' :: 'r' :: 'o' :: 'n' :: 'g' :: []) ++ '>' :: [])
        exact GoodTags.tag (by decide) (BF_decide (by decide)) GoodTags.nil
      · show GoodTags ('<' :: ('/' :: 's' :: 't' :: 'r' :: 'o' :: 'n' :: 'g' :: []) ++ '>' :: [])
        exact GoodTags.tag (by decide) (BF_decide (by decide)) GoodTags.nil
    · intro c hc
      rcases List.mem_append.mp hc with hm | hm
      · rcases List.mem_append.mp hm with hm2 | hm2
        · exact amp_notin_const (by decide) hm2
        · exact (clean_BF h).2 c hm2
      · exact amp_notin_const (by decide) hm

theorem renderInlines_good (l : List Inline) :
    GoodTags (renderInlines l) ∧ (∀ c ∈ renderInlines l, c ≠ '&') := by
  induction l with
  | nil => exact ⟨GoodTags.nil, by decide⟩
  | cons i t ih =>
    have hstep : renderInlines (i :: t) = renderInline i ++ renderInlines t := by
      simp [renderInlines]
    rw [hstep]
    refine ⟨GoodTags_append (renderInline_good i).1 ih.1, fun c hc => ?_⟩
    rcases List.mem_append.mp hc with hm | hm
    · exact (renderInline_good i).2 c hm
    · exact ih.2 c hm

theorem renderBlock_good (bk : Block) :
    GoodTags (renderBlock bk) ∧ (∀ c ∈ renderBlock bk, c ≠ '&') := by
  have hopen : ∀ mid : List Char, mid ≠ [] → BF mid →
      GoodTags ('<' :: mid ++ '>' :: []) :=
    fun mid hne hbf => GoodTags.tag hne hbf GoodTags.nil
  cases bk with
  | stray i => exact renderInline_good i
  | h1 cont =>
    refine ⟨GoodTags_append (GoodTags_append
      (hopen ('h' :: '1' :: []) (by decide) (BF_decide (by decide)))
      (renderInlines_good cont).1)
      (hopen ('/' :: 'h' :: '1' :: []) (by decide) (BF_decide (by decide))),
      fun c hc => ?_⟩
    rcases List.mem_append.mp hc with hm | hm
    · rcases List.mem_append.mp hm with hm2 | hm2
      · exact amp_notin_const (by decide) hm2
      · exact (renderInlines_good cont).2 c hm2
    · exact amp_notin_const (by decide) hm
  | h2 cont =>
    refine ⟨GoodTags_append (GoodTags_append
      (hopen ('h' :: '2' :: []) (by decide) (BF_decide (by decide)))
      (renderInlines_good cont).1)
      (hopen ('/' :: 'h' :: '2' :: []) (by decide) (BF_decide (by decide))),
      fun c hc => ?_⟩
    rcases List.mem_append.mp hc with hm | hm
    · rcases List.mem_append.mp hm with hm2 | hm2
      · exact amp_notin_const (by decide) hm2
      · exact (renderInlines_good cont).2 c hm2
    · exact amp_notin_const (by decide) hm
  | h3 cont =>
    refine ⟨GoodTags_append (GoodTags_append
      (hopen ('h' :: '3' :: []) (by decide) (BF_decide (by decide)))
      (renderInlines_good cont).1)
      (hopen ('/' :: 'h' :: '3' :: []) (by decide) (BF_decide (by decide))),
      fun c hc => ?_⟩
    rcases List.mem_append.mp hc with hm | hm
    · rcases List.mem_append.mp hm with hm2 | hm2
      · exact amp_notin_const (by decide) hm2
      · exact (renderInlines_good cont).2 c hm2
    · exact amp_notin_const (by decide) hm
  | h4 cont =>
    refine ⟨GoodTags_append (GoodTags_append
      (hopen ('h' :: '4' :: []) (by decide) (BF_decide (by decide)))
      (renderInlines_good cont).1)
      (hopen ('/' :: 'h' :: '4' :: []) (by decide) (BF_decide (by decide))),
      fun c hc => ?_⟩
    rcases List.mem_append.mp hc with hm | hm
    · rcases List.mem_append.mp hm with hm2 | hm2
      · exact amp_notin_const (by decide) hm2
      · exact (renderInlines_good cont).2 c hm2
    · exact amp_notin_const (by decide) hm
  | para cont =>
    refine ⟨GoodTags_append (GoodTags_append
      (hopen ('p' :: []) (by decide) (BF_decide (by decide)))
      (renderInlines_good cont).1)
      (hopen ('/' :: 'p' :: []) (by decide) (BF_decide (by decide))),
      fun c hc => ?_⟩
    rcases List.mem_append.mp hc with hm | hm
    · rcases List.mem_append.mp hm with hm2 | hm2
      · exact amp_notin_const (by decide) hm2
      · exact (renderInlines_good cont).2 c hm2
    · exact amp_notin_const (by decide) hm

theorem renderDoc_good (d : List Block) :
    GoodTags (renderDoc d) ∧ (∀ c ∈ renderDoc d, c ≠ '&') := by
  induction d with
  | nil => exact ⟨GoodTags.nil, by decide⟩
  | cons bk t ih =>
    have hstep : renderDoc (bk :: t) = renderBlock bk ++ renderDoc t := by
      simp [renderDoc]
    rw [hstep]
    refine ⟨GoodTags_append (renderBlock_good bk).1 ih.1, fun c hc => ?_⟩
    rcases List.mem_append.mp hc with hm | hm
    · exact (renderBlock_good bk).2 c hm
    · exact ih.2 c hm

/-! ## Claim C4 -/

/-- C4 as stated is false: `<p>&lt;</p>` is well-formed single-level
HTML over the listed tags and entities, yet the converter's output is
the one-character string `<`: the `&lt;` entity is decoded to a literal
angle bracket before the tag-stripping pass, which then has no matching
`>` to remove. -/
theorem C4_counterexample :
    '<' ∈ html_to_markdown "<p>&lt;</p>".toList := by decide

/-- C4 (amended): for every well-formed single-level HTML input over the
tags `<h1>`..`<h4>`, `<p>`, `<em>`, `<strong>`, `<br>` with text free of
`'<'`, `'>'`, `'&'` and with the non-breaking-space and ellipsis special
characters (the ampersand-spelled entities `&nbsp;`, `&amp;`, `&lt;`,
`&gt;` excluded, since `&lt;`/`&gt;` decode to literal angle brackets
before tag stripping and `&amp;`/`&nbsp;` can combine with adjacent text
into such entities), the converter output contains no angle bracket. -/
theorem C4_no_angle_brackets (d : List Block) :
    ∀ c ∈ html_to_markdown (renderDoc d), c ≠ '<' ∧ c ≠ '>' :=
  html_to_markdown_BF (renderDoc d) (renderDoc_good d).1 (renderDoc_good d).2

/-- C4 witness: the amended statement applied to a concrete document
using a paragraph, a line break, and both allowed special characters. -/
theorem C4_witness :
    'a' ∈ html_to_markdown (renderDoc
      [Block.para [Inline.txt "a".toList (by decide), Inline.ent Ent.nbspChar,
        Inline.br, Inline.ent Ent.hellip]]) ∧
    ('a' ≠ '<' ∧ 'a' ≠ '>') :=
  ⟨by decide,
   C4_no_angle_brackets
     [Block.para [Inline.txt "a".toList (by decide), Inline.ent Ent.nbspChar,
       Inline.br, Inline.ent Ent.hellip]] 'a' (by decide)⟩

/-- Sanity check: the grammar renders Scenario A's document to its
exact HTML string. -/
theorem renderDoc_scenarioA :
    renderDoc [Block.h2 [Inline.txt "Title".toList (by decide)],
      Block.para [Inline.txt "Hello ".toList (by decide),
        Inline.strong "world".toList (by decide)]]
      = "<h2>Title</h2><p>Hello <strong>world</strong></p>".toList := by decide

end CPE
